import Mathlib

/-!
Verification of the multiplex signed-network analytics engine.

This file gives a shallow embedding, over `Nat` node identifiers and exact
rational arithmetic, of the analytics kernel:

* `packages/analytics/src/balance/signed_network.py`
* `packages/analytics/src/centrality/multiplex_centrality.py`
* `packages/analytics/src/advanced/institutional_metrics.py`

Python dictionaries are modeled as association lists, Python floats as `ℚ`,
raised exceptions as `Except.error`, and the dense symmetric eigensolver
(whose output is numerically unspecified) as an abstract vector parameter;
the shape constraints of the eigenvector array (which determine the
out-of-bounds behaviour of `eigenvectors[:, 1]`) are modeled exactly.
-/

namespace MNS

/-- A Python attribute value as it appears in edge records: a string or an
integer.  (Only these two shapes are distinguished by the code under
verification.) -/
inductive PyVal where
  | s (v : String)
  | i (v : Int)
deriving DecidableEq, Repr

/-- An edge record passed to `create_signed_graph_from_edges`
(`signed_network.py` lines 280-306): mandatory `source`/`target` keys, an
optional `sign` key, and the remaining keys (`extras`). -/
structure EdgeRec where
  source : Nat
  target : Nat
  sgn : Option PyVal
  extras : List (String × PyVal)
deriving DecidableEq, Repr

/-- The sign computed for one edge record (`signed_network.py` lines
292-296): `edge.get('sign', 'POSITIVE')`; a string maps to `1` exactly when
it equals `"POSITIVE"` and to `-1` otherwise; a non-string is cast with
`int(...)`. -/
def edgeSignValue (r : EdgeRec) : Int :=
  match r.sgn.getD (PyVal.s "POSITIVE") with
  | PyVal.s v => if v = "POSITIVE" then 1 else -1
  | PyVal.i n => n

/-- A stored `networkx` edge: endpoints, the `sign` attribute and the other
attributes.  Attribute-dictionary update is modeled by appending; a lookup
takes the rightmost binding. -/
structure GEdge where
  u : Nat
  v : Nat
  sign : Int
  attrs : List (String × PyVal)
deriving DecidableEq, Repr

/-- Whether a stored edge joins the unordered pair of endpoints. -/
def sameEnds (e : GEdge) (a b : Nat) : Bool :=
  (e.u == a && e.v == b) || (e.u == b && e.v == a)

/-- Model of `G.add_edge(u, v, sign=s, **ats)`: an existing edge with the same
unordered endpoints has its attribute dictionary updated, otherwise a new
edge is appended. -/
def addEdge (es : List GEdge) (a b : Nat) (s : Int) (ats : List (String × PyVal)) :
    List GEdge :=
  if es.any (fun e => sameEnds e a b) then
    es.map (fun e => if sameEnds e a b then { e with sign := s, attrs := e.attrs ++ ats } else e)
  else es ++ [⟨a, b, s, ats⟩]

/-- Model of `create_signed_graph_from_edges` (`signed_network.py` lines 280-306):
for each record, compute the sign and add the edge with the extra keys as
attributes.  The result is the edge list of the built graph. -/
def create_signed_graph_from_edges (recs : List EdgeRec) : List GEdge :=
  recs.foldl (fun acc r => addEdge acc r.source r.target (edgeSignValue r) r.extras) []

/-- A graph handed to `SignedNetworkAnalyzer`: edges carry an optional
`sign` attribute (absent = the key is missing), of arbitrary integer
value. -/
structure RawSGraph where
  nodes : List Nat
  edges : List (Nat × Nat × Option Int)
deriving DecidableEq, Repr

/-- Model of `SignedNetworkAnalyzer._validate_graph` (`signed_network.py` lines
53-59): scan the edges; an edge with no `sign` attribute or with a sign
outside `(-1, 1)` raises `ValueError`. -/
def validate_graph : List (Nat × Nat × Option Int) → Except String Unit
  | [] => Except.ok ()
  | e :: es =>
    match e.2.2 with
    | none => Except.error "missing sign attribute"
    | some s => if s = -1 ∨ s = 1 then validate_graph es else Except.error "invalid sign"

/-- The constructed analyzer simply stores the (unmodified) graph. -/
structure SignedNetworkAnalyzer where
  graph : RawSGraph
deriving DecidableEq, Repr

/-- Model of `SignedNetworkAnalyzer.__init__` (`signed_network.py` lines 45-51):
store the graph, then validate; a validation error propagates. -/
def mkSignedNetworkAnalyzer (g : RawSGraph) : Except String SignedNetworkAnalyzer :=
  match validate_graph g.edges with
  | Except.ok _ => Except.ok ⟨g⟩
  | Except.error m => Except.error m

/-- An edge datum passes validation exactly when its sign is present and
equals `1` or `-1`. -/
def validSign (e : Nat × Nat × Option Int) : Prop :=
  e.2.2 = some 1 ∨ e.2.2 = some (-1)

instance (e : Nat × Nat × Option Int) : Decidable (validSign e) := by
  unfold validSign; infer_instance

/-- A validated signed undirected graph: every edge is `(u, v, sign)`. -/
structure SGraph where
  nodes : List Nat
  edges : List (Nat × Nat × Int)
deriving DecidableEq, Repr

/-- Two edge triples describe the same unordered node pair. -/
def sameEdgePair (e f : Nat × Nat × Int) : Prop :=
  (e.1 = f.1 ∧ e.2.1 = f.2.1) ∨ (e.1 = f.2.1 ∧ e.2.1 = f.1)

instance : DecidableRel sameEdgePair := fun e f => by
  unfold sameEdgePair; infer_instance

/-- Well-formedness of a signed graph, matching the spec data model and
`networkx` invariants: node list without duplicates; every edge joins two
distinct existing nodes and carries sign `1` or `-1`; no two edges join the
same unordered node pair. -/
def SWellFormed (g : SGraph) : Prop :=
  g.nodes.Nodup ∧
  (∀ e ∈ g.edges, e.1 ∈ g.nodes ∧ e.2.1 ∈ g.nodes ∧ e.1 ≠ e.2.1 ∧ (e.2.2 = 1 ∨ e.2.2 = -1)) ∧
  g.edges.Pairwise (fun e f => ¬ sameEdgePair e f)

instance (g : SGraph) : Decidable (SWellFormed g) := by
  unfold SWellFormed; infer_instance

/-- Whether one edge is frustrated under a bipartition given as a
membership test `p` (`_count_frustrated_edges`, `signed_network.py` lines
108-117): a positive edge crossing the partition, or a negative edge inside
one part. -/
def frustEdge (p : Nat → Bool) (e : Nat × Nat × Int) : Bool :=
  (e.2.2 == 1 && !(p e.1 == p e.2.1)) || (e.2.2 == -1 && (p e.1 == p e.2.1))

/-- Model of `SignedNetworkAnalyzer._count_frustrated_edges` (`signed_network.py`
lines 98-119), with the `partition` set abstracted to its membership
test. -/
def count_frustrated_edges (g : SGraph) (p : Nat → Bool) : Nat :=
  g.edges.countP (frustEdge p)

/-- The bipartition selected by a mask
(`[nodes[i] for i in range(n) if mask & (1 << i)]`,
`signed_network.py` line 92). -/
def partitionOf (g : SGraph) (mask : Nat) : List Nat :=
  g.nodes.enum.filterMap (fun iv => if mask.testBit iv.1 then some iv.2 else none)

/-- Frustrated-edge count of the bipartition selected by a mask
(`signed_network.py` line 93). -/
def countFrustratedMask (g : SGraph) (mask : Nat) : Nat :=
  count_frustrated_edges g (fun v => decide (v ∈ partitionOf g mask))

/-- The running minimum of `_compute_frustration_exact`: `none` models the
initial `float('inf')`. -/
def pyMinLoop : List Nat → Option Nat → Option Nat
  | [], acc => acc
  | c :: cs, acc => pyMinLoop cs (some (match acc with | none => c | some a => min a c))

/-- Model of `SignedNetworkAnalyzer._compute_frustration_exact` (`signed_network.py`
lines 81-96): minimum frustrated-edge count over all `2 ^ n` masks.  The
mask list `range (2 ^ n)` is never empty, so the final `getD 0` (standing
for `int(...)` applied to the running minimum) never sees the initial
infinity. -/
def compute_frustration_exact (g : SGraph) : Nat :=
  (pyMinLoop ((List.range (2 ^ g.nodes.length)).map (countFrustratedMask g)) none).getD 0

/-- The bipartition induced by the Fiedler vector `f` (entries `f i ≥ 0`
select `nodes[i]`; ties resolve into the partition), `signed_network.py`
lines 147 and 216. -/
def spectralPartition (g : SGraph) (f : Nat → ℚ) : List Nat :=
  g.nodes.enum.filterMap (fun iv => if 0 ≤ f iv.1 then some iv.2 else none)

/-- Model of `SignedNetworkAnalyzer.compute_frustration_index` (`signed_network.py`
lines 61-79): `0` for the empty graph, exact enumeration for `n ≤ 20`,
otherwise the count under the spectral bipartition.  The eigensolver's
Fiedler vector is the abstract parameter `f` (its numerical value is
unspecified; only its use is modeled). -/
def compute_frustration_index (g : SGraph) (f : Nat → ℚ) : Nat :=
  if g.nodes.length = 0 then 0
  else if g.nodes.length ≤ 20 then compute_frustration_exact g
  else count_frustrated_edges g (fun v => decide (v ∈ spectralPartition g f))

/-- Encode a list of bits as the mask whose bit `i` is `bs[i]`
(least-significant first).  Spec-side helper connecting arbitrary
bipartitions to the masks enumerated by the code. -/
def maskOf : List Bool → Nat
  | [] => 0
  | b :: bs => (if b then 1 else 0) + 2 * maskOf bs

/-- Whether an edge triple joins the unordered pair `a, b`. -/
def edgeBetween (e : Nat × Nat × Int) (a b : Nat) : Bool :=
  (e.1 == a && e.2.1 == b) || (e.1 == b && e.2.1 == a)

/-- Model of `graph.has_edge(a, b)`. -/
def hasEdgeB (g : SGraph) (a b : Nat) : Bool :=
  g.edges.any (fun e => edgeBetween e a b)

/-- Model of `graph[a][b]['sign']`: the sign of the (unique, under well-formedness)
edge joining `a` and `b`; `0` when there is none (the code only reads signs
of edges it has checked to exist). -/
def esign (g : SGraph) (a b : Nat) : Int :=
  match g.edges.find? (fun e => edgeBetween e a b) with
  | some e => e.2.2
  | none => 0

/-- Model of `list(graph.neighbors(v))`: the other endpoint of each edge incident to
`v`, in edge order. -/
def nbrs (g : SGraph) (v : Nat) : List Nat :=
  g.edges.filterMap (fun e =>
    if e.1 = v then some e.2.1 else if e.2.1 = v then some e.1 else none)

/-- Model of `for i, n1 in enumerate(neighbors): for n2 in neighbors[i+1:]`: the
ordered pairs of list elements with the first strictly earlier. -/
def pairsAfter {α : Type} : List α → List (α × α)
  | [] => []
  | x :: xs => xs.map (fun y => (x, y)) ++ pairsAfter xs

/-- The triangle scan of `analyze_triangles` (`signed_network.py` lines
158-171): for each node, for each earlier/later neighbor pair joined by an
edge, record the three edge signs. -/
def triEntries (g : SGraph) : List (List Int) :=
  g.nodes.flatMap (fun a =>
    ((pairsAfter (nbrs g a)).filter (fun q => hasEdgeB g q.1 q.2)).map
      (fun q => [esign g a q.1, esign g a q.2, esign g q.1 q.2]))

/-- Result record of `analyze_triangles`. -/
structure TriangleAnalysis where
  total_triangles : Nat
  balanced_triangles : Nat
  frustrated_triangles : Nat
  balance_ratio : ℚ
deriving DecidableEq, Repr

/-- Model of `neg_count in (1, 3)` for a recorded sign triple. -/
def frustSigns (signs : List Int) : Bool :=
  (signs.count (-1) == 1) || (signs.count (-1) == 3)

/-- Model of `SignedNetworkAnalyzer.analyze_triangles` (`signed_network.py` lines
151-190): each triangle appears three times in the scan, so totals are
divided by 3; `balanced = total - frustrated`; ratio `1.0` when there are
no triangles. -/
def analyze_triangles (g : SGraph) : TriangleAnalysis :=
  let triangles := triEntries g
  let total := triangles.length / 3
  let frustrated := (triangles.countP frustSigns) / 3
  let balanced := total - frustrated
  ⟨total, balanced, frustrated, if 0 < total then (balanced : ℚ) / total else 1⟩

/-- Model of `SignedNetworkAnalyzer.find_frustrated_edges` (`signed_network.py`
lines 192-226).  The eigendecomposition of the `n × n` signed Laplacian
yields an `n × n` eigenvector array; `eigenvectors[:, 1]` demands at least
two columns, so for `n < 2` the call raises `IndexError`.  For `n ≥ 2` the
Fiedler column is the abstract parameter `f` and the frustrated edges under
its bipartition are returned. -/
def find_frustrated_edges (g : SGraph) (f : Nat → ℚ) : Except String (List (Nat × Nat)) :=
  if g.nodes.length < 2 then Except.error "IndexError"
  else Except.ok
    ((g.edges.filter (frustEdge (fun v => decide (v ∈ spectralPartition g f)))).map
      (fun e => (e.1, e.2.1)))

/-- Result record of `compute_structural_balance`. -/
structure StructuralBalanceResult where
  is_balanced : Bool
  frustration_index : Nat
  frustrated_edges : List (Nat × Nat)
  balance_ratio : ℚ
  positive_clusters : List (List Nat)
  negative_clusters : List (List Nat)
deriving DecidableEq, Repr

/-- The nodes with negative Fiedler entry (`signed_network.py` line 268). -/
def negativePartition (g : SGraph) (f : Nat → ℚ) : List Nat :=
  g.nodes.enum.filterMap (fun iv => if f iv.1 < 0 then some iv.2 else none)

/-- Model of `SignedNetworkAnalyzer.compute_structural_balance` (`signed_network.py`
lines 228-277): frustration index, then `find_frustrated_edges` (whose
exception propagates), then triangle analysis, then the early return for
`n = 0`, then cluster extraction via a fresh eigendecomposition (again
demanding two eigenvector columns). -/
def compute_structural_balance (g : SGraph) (f : Nat → ℚ) :
    Except String StructuralBalanceResult :=
  let frustration := compute_frustration_index g f
  match find_frustrated_edges g f with
  | Except.error m => Except.error m
  | Except.ok fe =>
    let ta := analyze_triangles g
    if g.nodes.length = 0 then
      Except.ok ⟨true, 0, [], 1, [], []⟩
    else if g.nodes.length < 2 then Except.error "IndexError"
    else
      let pos := spectralPartition g f
      let neg := negativePartition g f
      Except.ok ⟨decide (frustration = 0), frustration, fe, ta.balance_ratio,
        if pos.isEmpty then [] else [pos],
        if neg.isEmpty then [] else [neg]⟩

/-- The node at index `i` of the graph's node list. -/
def ndAt (g : SGraph) (i : Nat) : Nat := g.nodes.getD i 0

/-- The index of a node in the graph's node list. -/
def idxOfN (g : SGraph) (v : Nat) : Nat := List.indexOf v g.nodes

/-- The node set of a signed graph. -/
def nodesF (g : SGraph) : Finset Nat := g.nodes.toFinset

/-- Spec-side: the ordered pairs of common neighbors of `a` that are joined
by an edge and satisfy `R a · ·`. -/
def pairSet (g : SGraph) (R : Nat → Nat → Nat → Bool) (a : Nat) : Finset (Nat × Nat) :=
  (nodesF g ×ˢ nodesF g).filter
    (fun q => hasEdgeB g a q.1 = true ∧ hasEdgeB g a q.2 = true ∧
              hasEdgeB g q.1 q.2 = true ∧ R a q.1 q.2 = true)

/-- Spec-side: the ordered vertex triples of triangles satisfying `R`. -/
def triScan (g : SGraph) (R : Nat → Nat → Nat → Bool) : Finset (Nat × Nat × Nat) :=
  (nodesF g ×ˢ nodesF g ×ˢ nodesF g).filter
    (fun o => hasEdgeB g o.1 o.2.1 = true ∧ hasEdgeB g o.1 o.2.2 = true ∧
              hasEdgeB g o.2.1 o.2.2 = true ∧ R o.1 o.2.1 o.2.2 = true)

/-- Sort three naturals into nondecreasing order. -/
def sort3 (p q r : Nat) : Nat × Nat × Nat :=
  if p ≤ q then
    (if q ≤ r then (p, q, r) else if p ≤ r then (p, r, q) else (r, p, q))
  else
    (if p ≤ r then (q, p, r) else if q ≤ r then (q, r, p) else (r, q, p))

/-- Spec-side canonical triangle set: strictly increasing index triples
`i < j < k` into the node list whose three nodes are mutually joined by
edges and satisfy `R`.  Under a duplicate-free node list these triples are
in canonical bijection with the unordered triangles of the graph. -/
def triFinset (g : SGraph) (R : Nat → Nat → Nat → Bool) : Finset (Nat × Nat × Nat) :=
  ((Finset.range g.nodes.length ×ˢ Finset.range g.nodes.length ×ˢ
      Finset.range g.nodes.length).filter
    (fun t => t.1 < t.2.1 ∧ t.2.1 < t.2.2 ∧
      hasEdgeB g (ndAt g t.1) (ndAt g t.2.1) = true ∧
      hasEdgeB g (ndAt g t.1) (ndAt g t.2.2) = true ∧
      hasEdgeB g (ndAt g t.2.1) (ndAt g t.2.2) = true ∧
      R (ndAt g t.1) (ndAt g t.2.1) (ndAt g t.2.2) = true))

/-- The per-node contribution of the triangle scan restricted by `R`. -/
def cntR (g : SGraph) (R : Nat → Nat → Nat → Bool) (a : Nat) : Nat :=
  (pairsAfter (nbrs g a)).countP (fun q => R a q.1 q.2 && hasEdgeB g q.1 q.2)

/-- The triangle on `a`, `x`, `y` has 1 or 3 negative edges. -/
def frustR (g : SGraph) (a x y : Nat) : Bool :=
  frustSigns [esign g a x, esign g a y, esign g x y]

/-- Model of `neg_count in (0, 2)` for a sign triple. -/
def balSigns (signs : List Int) : Bool :=
  (signs.count (-1) == 0) || (signs.count (-1) == 2)

/-- The triangle on `a`, `x`, `y` has 0 or 2 negative edges. -/
def balR (g : SGraph) (a x y : Nat) : Bool :=
  balSigns [esign g a x, esign g a y, esign g x y]

/-- Map an ordered triangle to its canonical sorted index triple. -/
def sortFn (g : SGraph) (o : Nat × Nat × Nat) : Nat × Nat × Nat :=
  sort3 (idxOfN g o.1) (idxOfN g o.2.1) (idxOfN g o.2.2)

/-- An undirected (unsigned) layer graph. -/
structure UGraph where
  nodes : List Nat
  edges : List (Nat × Nat)
deriving DecidableEq, Repr

/-- A multiplex: insertion-ordered map from layer name to layer graph. -/
structure Multiplex where
  layers : List (String × UGraph)
deriving DecidableEq, Repr

/-- Model of `G.degree(v)`: incident edge ends (a self-loop counts twice). -/
def degree (G : UGraph) (v : Nat) : Nat :=
  (G.edges.map (fun e =>
    (if e.1 = v then 1 else 0) + (if e.2 = v then 1 else 0))).sum

/-- Model of `MultiplexCentralityAnalyzer._get_all_nodes`
(`multiplex_centrality.py` lines 58-63): the union of the layer node sets
(kept in first-seen order; only its membership is observable). -/
def allNodesM (mp : Multiplex) : List Nat :=
  (mp.layers.flatMap (fun lg => lg.2.nodes)).dedup

/-- Model of `sorted(self.all_nodes)` (`multiplex_centrality.py` line 207). -/
def sortedNodes (mp : Multiplex) : List Nat :=
  List.insertionSort (· ≤ ·) (allNodesM mp)

/-- The per-layer degree list for a node
(`compute_participation_coefficient`, `multiplex_centrality.py` lines
121-127): `G.degree(node)` when present, else `0`. -/
def layerDegrees (mp : Multiplex) (v : Nat) : List Nat :=
  mp.layers.map (fun lg => if v ∈ lg.2.nodes then degree lg.2 v else 0)

/-- Model of `MultiplexCentralityAnalyzer.compute_participation_coefficient`
(`multiplex_centrality.py` lines 113-139). -/
def compute_participation_coefficient (mp : Multiplex) (v : Nat) : ℚ :=
  let ds := layerDegrees mp v
  let T : Nat := ds.sum
  if T = 0 then 0
  else
    let L := mp.layers.length
    let sumsq : ℚ := (ds.map (fun d : Nat => ((d : ℚ) / (T : ℚ)) ^ 2)).sum
    let P : ℚ := if 1 < L then ((L : ℚ) / ((L : ℚ) - 1)) * (1 - sumsq) else 0
    max 0 (min 1 P)

/-- Model of `nx.degree_centrality` value of one node (graph primitives layer):
`deg(v) / (n - 1)`, and `1` for graphs with at most one node. -/
def dcVal (G : UGraph) (v : Nat) : ℚ :=
  if G.nodes.length ≤ 1 then 1 else (degree G v : ℚ) / ((G.nodes.length : ℚ) - 1)

/-- Model of `weights.get(layer_name, 0)`. -/
def lookupD (w : List (String × ℚ)) (k : String) : ℚ :=
  match w.find? (fun kv => kv.1 = k) with
  | some kv => kv.2
  | none => 0

/-- The weight-normalization prologue of `compute_multiplex_centrality`
(`multiplex_centrality.py` lines 154-159): an empty dict normalizes to an
empty dict (the comprehension never divides); a nonempty dict with total
weight `0` raises `ZeroDivisionError`. -/
def normalizeWeights (ws : List (String × ℚ)) : Except String (List (String × ℚ)) :=
  if ws.isEmpty then Except.ok []
  else
    let total := (ws.map (fun kv => kv.2)).sum
    if total = 0 then Except.error "ZeroDivisionError"
    else Except.ok (ws.map (fun kv => (kv.1, kv.2 / total)))

/-- Model of `MultiplexCentralityAnalyzer.compute_multiplex_centrality`
(`multiplex_centrality.py` lines 141-192): normalize the weights (default:
`1.0` per layer), initialize every universe node to `0.0`, then dispatch on
the method tag; an unknown tag leaves the zero map. -/
def compute_multiplex_centrality (mp : Multiplex) (method : String)
    (weights : Option (List (String × ℚ))) : Except String (List (Nat × ℚ)) :=
  let ws0 := weights.getD (mp.layers.map (fun lg => (lg.1, (1 : ℚ))))
  match normalizeWeights ws0 with
  | Except.error m => Except.error m
  | Except.ok ws =>
    if method = "aggregate" then
      Except.ok ((allNodesM mp).map (fun v =>
        (v, (mp.layers.map (fun lg =>
              if v ∈ lg.2.nodes then lookupD ws lg.1 * dcVal lg.2 v else 0)).sum)))
    else if method = "max" then
      Except.ok ((allNodesM mp).map (fun v =>
        (v, (mp.layers.map (fun lg =>
              if v ∈ lg.2.nodes then
                (if 1 < lg.2.nodes.length then
                  (degree lg.2 v : ℚ) / ((lg.2.nodes.length : ℚ) - 1)
                 else 0)
              else 0)).foldl max 0)))
    else if method = "harmonic" then
      Except.ok ((allNodesM mp).map (fun v =>
        let cents := mp.layers.filterMap (fun lg =>
          if v ∈ lg.2.nodes ∧ 1 < lg.2.nodes.length then
            (if 0 < (degree lg.2 v : ℚ) / ((lg.2.nodes.length : ℚ) - 1) then
              some ((degree lg.2 v : ℚ) / ((lg.2.nodes.length : ℚ) - 1))
             else none)
          else none)
        (v, if cents.isEmpty then 0 else (cents.length : ℚ) / (cents.map (fun c => 1 / c)).sum)))
    else
      Except.ok ((allNodesM mp).map (fun v => (v, 0)))

/-- Index of a node in the sorted universe (`node_idx`,
`multiplex_centrality.py` line 214). -/
def idxM (mp : Multiplex) (v : Nat) : Nat := List.indexOf v (sortedNodes mp)

/-- Model of `n * L`, the dimension of the supra-adjacency matrix. -/
def supraSize (mp : Multiplex) : Nat := (sortedNodes mp).length * mp.layers.length

/-- The sequence of entry assignments building the supra-adjacency matrix
(`multiplex_centrality.py` lines 219-240), in program order: per layer,
the symmetric intra-layer `1` entries, then the directed inter-layer
`inter_layer_weight` entries for nodes of the source layer. -/
def supraWrites (mp : Multiplex) (w : ℚ) : List (Nat × Nat × ℚ) :=
  let nodes := sortedNodes mp
  let n := nodes.length
  mp.layers.enum.flatMap (fun le =>
    (le.2.2.edges.flatMap (fun e =>
      if e.1 ∈ nodes ∧ e.2 ∈ nodes then
        [(le.1 * n + idxM mp e.1, le.1 * n + idxM mp e.2, (1 : ℚ)),
         (le.1 * n + idxM mp e.2, le.1 * n + idxM mp e.1, (1 : ℚ))]
      else []))
    ++ ((List.range mp.layers.length).flatMap (fun m =>
      if m ≠ le.1 then
        nodes.filterMap (fun v =>
          if v ∈ le.2.2.nodes then some (le.1 * n + idxM mp v, m * n + idxM mp v, w)
          else none)
      else [])))

/-- A matrix cell holds the value of the last assignment to it, `0` if
never assigned. -/
def lastWriteVal (wsL : List (Nat × Nat × ℚ)) (r c : Nat) : ℚ :=
  match (wsL.filter (fun t => t.1 = r ∧ t.2.1 = c)).getLast? with
  | some t => t.2.2
  | none => 0

/-- The supra-adjacency matrix entry. -/
def supraA (mp : Multiplex) (w : ℚ) (r c : Nat) : ℚ :=
  lastWriteVal (supraWrites mp w) r c

/-- Model of `supra_A.sum(axis=1)`. -/
def rowSum (mp : Multiplex) (w : ℚ) (r : Nat) : ℚ :=
  ∑ c ∈ Finset.range (supraSize mp), supraA mp w r c

/-- Model of `row_sums[row_sums == 0] = 1` (`multiplex_centrality.py` line 247). -/
def rowSumFixed (mp : Multiplex) (w : ℚ) (r : Nat) : ℚ :=
  if rowSum mp w r = 0 then 1 else rowSum mp w r

/-- The row-normalized transition matrix `P = D_inv @ supra_A`. -/
def transP (mp : Multiplex) (w : ℚ) (r c : Nat) : ℚ :=
  supraA mp w r c / rowSumFixed mp w r

/-- One power-iteration step
`pr_new = damping * (P.T @ pr) + (1 - damping) / supra_size`. -/
def prStep (mp : Multiplex) (w d : ℚ) (pr : Nat → ℚ) : Nat → ℚ :=
  fun i => d * (∑ r ∈ Finset.range (supraSize mp), transP mp w r i * pr r) +
    (1 - d) / (supraSize mp : ℚ)

/-- Model of `np.linalg.norm(pr_new - pr, 1)`. -/
def l1dist (mp : Multiplex) (f g : Nat → ℚ) : ℚ :=
  ∑ i ∈ Finset.range (supraSize mp), |f i - g i|

/-- The bounded power iteration (`multiplex_centrality.py` lines 254-262):
up to `max_iter` steps; when the update moves less than `tol` in 1-norm the
loop breaks returning the previous vector. -/
def prIter (mp : Multiplex) (w d : ℚ) : Nat → (Nat → ℚ) → (Nat → ℚ)
  | 0, pr => pr
  | k + 1, pr =>
    if l1dist mp (prStep mp w d pr) pr < 1 / 1000000 then pr
    else prIter mp w d k (prStep mp w d pr)

/-- The PageRank vector after the iteration, from the uniform start. -/
def prFinal (mp : Multiplex) (w d : ℚ) : Nat → ℚ :=
  prIter mp w d 100 (fun _ => 1 / (supraSize mp : ℚ))

/-- Model of `result[node] += pr[offset + idx]` summed over all layer slots
(`multiplex_centrality.py` lines 265-269). -/
def nodeMass (mp : Multiplex) (w d : ℚ) (v : Nat) : ℚ :=
  ∑ l ∈ Finset.range mp.layers.length,
    prFinal mp w d (l * (sortedNodes mp).length + idxM mp v)

/-- Model of `MultiplexCentralityAnalyzer.compute_multiplex_pagerank`
(`multiplex_centrality.py` lines 194-276) at `max_iter = 100`,
`tol = 1e-6`: empty universe yields the empty map, otherwise the per-node
layer-slot masses, renormalized when their total is positive. -/
def compute_multiplex_pagerank (mp : Multiplex) (w d : ℚ) : List (Nat × ℚ) :=
  if (sortedNodes mp).length = 0 then []
  else
    let raw := (sortedNodes mp).map (fun v => (v, nodeMass mp w d v))
    let total := (raw.map (fun kv => kv.2)).sum
    if 0 < total then raw.map (fun kv => (kv.1, kv.2 / total)) else raw

instance {e a : Type} [DecidableEq e] [DecidableEq a] : DecidableEq (Except e a) :=
  fun x y =>
    match x, y with
    | Except.ok u, Except.ok v =>
      if h : u = v then Decidable.isTrue (by rw [h])
      else Decidable.isFalse (fun hc => h (Except.ok.inj hc))
    | Except.error u, Except.error v =>
      if h : u = v then Decidable.isTrue (by rw [h])
      else Decidable.isFalse (fun hc => h (Except.error.inj hc))
    | Except.ok _, Except.error _ => Decidable.isFalse (fun hc => Except.noConfusion hc)
    | Except.error _, Except.ok _ => Decidable.isFalse (fun hc => Except.noConfusion hc)

/-- A directed graph for the institutional metrics. -/
structure DiGraph where
  nodes : List Nat
  edges : List (Nat × Nat)
deriving DecidableEq, Repr

/-- Model of `graph.in_degree(v)`. -/
def inDegree (g : DiGraph) (v : Nat) : Nat :=
  g.edges.countP (fun e => e.2 = v)

/-- Well-formedness of a directed graph: duplicate-free nodes, edges
between existing nodes, no duplicate edges. -/
def DWellFormed (g : DiGraph) : Prop :=
  g.nodes.Nodup ∧ (∀ e ∈ g.edges, e.1 ∈ g.nodes ∧ e.2 ∈ g.nodes) ∧ g.edges.Nodup

instance (g : DiGraph) : Decidable (DWellFormed g) := by
  unfold DWellFormed; infer_instance

/-- Membership test for a directed edge. -/
def edgeB (g : DiGraph) (a b : Nat) : Bool := decide ((a, b) ∈ g.edges)

/-- All ways to insert an element into a list. -/
def insertsOf {α : Type} (x : α) : List α → List (List α)
  | [] => [[x]]
  | y :: ys => (x :: y :: ys) :: (insertsOf x ys).map (fun z => y :: z)

/-- All orderings of a list (structurally recursive, so that concrete
instances evaluate). -/
def perms {α : Type} : List α → List (List α)
  | [] => [[]]
  | x :: xs => (perms xs).flatMap (insertsOf x)

/-- Every consecutive pair of the list is an edge. -/
def chainB (g : DiGraph) : List Nat → Bool
  | [] => true
  | [_] => true
  | a :: b :: rest => edgeB g a b && chainB g (b :: rest)

/-- The nonempty list of (pairwise distinct, in the enumeration below)
nodes is a directed simple cycle: consecutive edges plus the closing edge
from the last node back to the head (a one-element list is a self-loop
cycle, as in `networkx.simple_cycles`). -/
def isCycleList (g : DiGraph) (c : List Nat) : Bool :=
  match c with
  | [] => false
  | v :: rest => chainB g (v :: rest) && edgeB g ((v :: rest).getLast?.getD v) v

/-- The head is a minimum of the list: the canonical rotation of a cycle,
so that each simple cycle is enumerated exactly once. -/
def headIsMin : List Nat → Bool
  | [] => true
  | v :: rest => rest.all (fun x => v ≤ x)

/-- Model of `nx.simple_cycles` (graph primitives layer): all simple directed
cycles, each once, enumerated as the cycle-forming min-headed orderings of
node subsets. -/
def simple_cycles (g : DiGraph) : List (List Nat) :=
  (g.nodes.sublists.flatMap perms).filter
    (fun c => isCycleList g c && headIsMin c)

/-- The graph has no simple cycle: no ordering of any subset of its nodes
forms a directed cycle (the DAG property, bounded to the node list so that
it is decidable). -/
def Acyclic (g : DiGraph) : Prop :=
  ∀ c ∈ g.nodes.sublists.flatMap perms, isCycleList g c = false

instance (g : DiGraph) : Decidable (Acyclic g) := List.decidableBAll _ _

/-- Model of `max(d for n, d in self.graph.in_degree()) if self.graph.nodes() else 1`
(`institutional_metrics.py` line 418): note the guard substitutes `1` only
for the empty graph, not for a zero maximum. -/
def maxInDeg (g : DiGraph) : Nat :=
  if g.nodes.isEmpty then 1 else (g.nodes.map (inDegree g)).foldl max 0

/-- Model of `max(cycle_participation.values()) if cycle_participation else 1`
(`institutional_metrics.py` line 413): the dictionary's keys are the nodes
occurring in the kept cycles, each with its occurrence count. -/
def maxPartOf (cycles : List (List Nat)) : Nat :=
  if (cycles.flatMap id).isEmpty then 1
  else ((cycles.flatMap id).map
    (fun v => (cycles.map (fun c => c.count v)).sum)).foldl max 0

/-- Model of `AdvancedInstitutionalMetrics.detect_endogenous_risk`
(`institutional_metrics.py` lines 392-427): cycle participation over the
first 1000 simple cycles, then per node
`0.7 * part/max_participation + 0.3 * in_degree/max_in`.
`max_participation` is at least `1` in both branches, so only the second
division can fail: with at least one node and `max_in = 0` (in particular,
any nonempty graph with no edges) Python raises `ZeroDivisionError` at the
first node's division. -/
def detect_endogenous_risk (g : DiGraph) : Except String (List (Nat × ℚ)) :=
  let cycles := (simple_cycles g).take 1000
  let part : Nat → Nat := fun v => (cycles.map (fun c => c.count v)).sum
  if ¬ g.nodes.isEmpty ∧ maxInDeg g = 0 then Except.error "ZeroDivisionError"
  else Except.ok (g.nodes.map (fun v =>
    (v, (7 / 10 : ℚ) * ((part v : ℚ) / (maxPartOf cycles : ℚ)) +
        (3 / 10 : ℚ) * ((inDegree g v : ℚ) / (maxInDeg g : ℚ)))))

lemma validate_graph_ok_iff (es : List (Nat × Nat × Option Int)) :
    validate_graph es = Except.ok () ↔ ∀ e ∈ es, validSign e := by
  induction es with
  | nil => simp [validate_graph]
  | cons e es ih =>
    cases h : e.2.2 with
    | none => simp [validate_graph, h, validSign]
    | some s =>
      by_cases hs : s = -1 ∨ s = 1
      · simp only [validate_graph, h, if_pos hs, ih]
        constructor
        · intro hall
          intro x hx
          rcases List.mem_cons.mp hx with rfl | hx
          · unfold validSign; rw [h]
            rcases hs with rfl | rfl
            · right; rfl
            · left; rfl
          · exact hall x hx
        · intro hall x hx
          exact hall x (List.mem_cons_of_mem _ hx)
      · simp only [validate_graph, h, if_neg hs]
        constructor
        · intro hc; cases hc
        · intro hall
          have := hall e (List.mem_cons_self _ _)
          unfold validSign at this
          rw [h] at this
          rcases this with h1 | h1 <;> (injection h1 with h2; subst h2) <;>
            exact absurd (by tauto) hs

lemma validate_graph_cases (es : List (Nat × Nat × Option Int)) :
    validate_graph es = Except.ok () ∨ ∃ m, validate_graph es = Except.error m := by
  induction es with
  | nil => left; rfl
  | cons e es ih =>
    cases h : e.2.2 with
    | none => right; exact ⟨"missing sign attribute", by simp [validate_graph, h]⟩
    | some s =>
      by_cases hs : s = -1 ∨ s = 1
      · simpa [validate_graph, h, hs] using ih
      · right; exact ⟨"invalid sign", by simp [validate_graph, h, hs]⟩

/-- C9: construction of `SignedNetworkAnalyzer` fails exactly when some edge
lacks a valid sign; on an all-valid graph it succeeds and stores the input
graph unchanged. -/
theorem C9_analyzer_validation (g : RawSGraph) :
    (mkSignedNetworkAnalyzer g = Except.ok ⟨g⟩ ↔ ∀ e ∈ g.edges, validSign e) ∧
    ((∃ m, mkSignedNetworkAnalyzer g = Except.error m) ↔ ¬ ∀ e ∈ g.edges, validSign e) := by
  constructor
  · constructor
    · intro h
      rcases validate_graph_cases g.edges with hok | ⟨m, herr⟩
      · exact (validate_graph_ok_iff g.edges).mp hok
      · rw [mkSignedNetworkAnalyzer, herr] at h; cases h
    · intro h
      rw [mkSignedNetworkAnalyzer, (validate_graph_ok_iff g.edges).mpr h]
  · constructor
    · rintro ⟨m, hm⟩ hall
      rw [mkSignedNetworkAnalyzer, (validate_graph_ok_iff g.edges).mpr hall] at hm
      cases hm
    · intro h
      rcases validate_graph_cases g.edges with hok | ⟨m, herr⟩
      · exact absurd ((validate_graph_ok_iff g.edges).mp hok) h
      · exact ⟨m, by rw [mkSignedNetworkAnalyzer, herr]⟩

/-- Witness for C9: a two-edge valid graph is accepted unchanged, and a
graph whose edge has sign `2` is rejected. -/
theorem C9_analyzer_validation_witness :
    mkSignedNetworkAnalyzer ⟨[0, 1], [(0, 1, some 1), (1, 0, some (-1))]⟩ =
      Except.ok ⟨⟨[0, 1], [(0, 1, some 1), (1, 0, some (-1))]⟩⟩ ∧
    ∃ m, mkSignedNetworkAnalyzer ⟨[0, 1], [(0, 1, some 2)]⟩ = Except.error m :=
  ⟨(C9_analyzer_validation _).1.mpr (by decide),
   (C9_analyzer_validation _).2.mpr (by decide)⟩

/-- C4, as stated, is refuted: a record whose sign is the unknown string
`"UNKNOWN"` receives edge sign `-1`, not the claimed default `+1`. -/
theorem C4_counterexample :
    create_signed_graph_from_edges [⟨0, 1, some (PyVal.s "UNKNOWN"), []⟩] =
      [⟨0, 1, -1, []⟩] ∧ (-1 : Int) ≠ 1 := by
  constructor
  · rfl
  · decide

/-- C4 (amended): a `"POSITIVE"` or absent sign yields `+1`; every other
string (including `"NEGATIVE"`) yields `-1`; an integer sign is used as-is
(so `+1` yields `+1` and `-1` yields `-1`); the record's extra keys are
attached as edge attributes. -/
theorem C4_sign_mapping (r : EdgeRec) :
    (r.sgn = none → edgeSignValue r = 1) ∧
    (r.sgn = some (PyVal.s "POSITIVE") → edgeSignValue r = 1) ∧
    (∀ z, r.sgn = some (PyVal.s z) → z ≠ "POSITIVE" → edgeSignValue r = -1) ∧
    (∀ m : Int, r.sgn = some (PyVal.i m) → edgeSignValue r = m) ∧
    create_signed_graph_from_edges [r] = [⟨r.source, r.target, edgeSignValue r, r.extras⟩] := by
  refine ⟨?_, ?_, ?_, ?_, ?_⟩
  · intro h; simp [edgeSignValue, h]
  · intro h; simp [edgeSignValue, h]
  · intro z h hz; simp [edgeSignValue, h, hz]
  · intro m h; simp [edgeSignValue, h]
  · rfl

/-- Witness for C4 (amended): an absent sign maps to `+1`, the string
`"NEGATIVE"` maps to `-1`, and the integer `-1` passes through. -/
theorem C4_sign_mapping_witness :
    edgeSignValue ⟨0, 1, none, []⟩ = 1 ∧
    edgeSignValue ⟨0, 1, some (PyVal.s "NEGATIVE"), []⟩ = -1 ∧
    edgeSignValue ⟨0, 1, some (PyVal.i (-1)), []⟩ = -1 :=
  ⟨(C4_sign_mapping _).1 rfl,
   (C4_sign_mapping _).2.2.1 "NEGATIVE" rfl (by decide),
   (C4_sign_mapping _).2.2.2.1 (-1) rfl⟩

lemma maskOf_testBit (bs : List Bool) : ∀ i : Nat, (maskOf bs).testBit i = bs.getD i false := by
  induction bs with
  | nil => intro i; simp [maskOf, Nat.zero_testBit]
  | cons b bs ih =>
    intro i
    cases i with
    | zero =>
      rw [Nat.testBit_zero]
      cases b <;> simp [maskOf] <;> omega
    | succ i =>
      have hmask : maskOf (b :: bs) = (if b then 1 else 0) + 2 * maskOf bs := rfl
      rw [hmask, Nat.testBit_succ]
      have hdiv : ((if b then 1 else 0) + 2 * maskOf bs) / 2 = maskOf bs := by
        cases b <;> simp <;> omega
      rw [hdiv, ih]
      rfl

lemma maskOf_lt (bs : List Bool) : maskOf bs < 2 ^ bs.length := by
  induction bs with
  | nil => simp [maskOf]
  | cons b bs ih =>
    have : maskOf (b :: bs) = (if b then 1 else 0) + 2 * maskOf bs := rfl
    rw [this, List.length_cons, pow_succ]
    cases b <;> simp <;> omega

lemma mem_partitionOf_iff (g : SGraph) (m : Nat) (v : Nat) :
    v ∈ partitionOf g m ↔
      ∃ i : Fin g.nodes.length, g.nodes.get i = v ∧ m.testBit i = true := by
  unfold partitionOf
  rw [List.mem_filterMap]
  constructor
  · rintro ⟨⟨i, u⟩, hmem, hf⟩
    obtain ⟨hlt, hu⟩ := List.mem_enum hmem
    by_cases hbit : m.testBit i
    · rw [if_pos hbit] at hf
      injection hf with hf
      refine ⟨⟨i, hlt⟩, ?_, hbit⟩
      show g.nodes.get ⟨i, hlt⟩ = v
      rw [List.get_eq_getElem, ← hu]
      exact hf
    · rw [if_neg hbit] at hf; cases hf
  · rintro ⟨⟨i, hlt⟩, hv, hbit⟩
    refine ⟨(i, v), ?_, by simp [hbit]⟩
    have hlen : i < g.nodes.enum.length := by rw [List.enum_length]; exact hlt
    have hget : g.nodes.enum[i] = (i, v) := by
      rw [List.getElem_enum]
      exact congrArg _ (by simpa [List.get_eq_getElem] using hv)
    exact hget ▸ List.getElem_mem hlen

lemma mem_partitionOf_maskOf (g : SGraph) (p : Nat → Bool) (v : Nat) :
    v ∈ partitionOf g (maskOf (g.nodes.map p)) ↔ v ∈ g.nodes ∧ p v = true := by
  rw [mem_partitionOf_iff]
  constructor
  · rintro ⟨⟨i, hlt⟩, hv, hbit⟩
    rw [maskOf_testBit] at hbit
    rw [List.getD_eq_getElem _ _ (by simpa using hlt), List.getElem_map] at hbit
    refine ⟨hv ▸ List.get_mem _ _ _, ?_⟩
    rw [← hv]; exact hbit
  · rintro ⟨hv, hp⟩
    have hlt : List.indexOf v g.nodes < g.nodes.length := List.indexOf_lt_length.mpr hv
    refine ⟨⟨List.indexOf v g.nodes, hlt⟩, ?_, ?_⟩
    · show g.nodes[List.indexOf v g.nodes] = v
      exact List.getElem_indexOf hlt
    · rw [maskOf_testBit, List.getD_eq_getElem _ _ (by simpa using hlt), List.getElem_map]
      rw [List.getElem_indexOf hlt]
      exact hp

lemma count_mask_maskOf (g : SGraph) (hwf : SWellFormed g) (p : Nat → Bool) :
    countFrustratedMask g (maskOf (g.nodes.map p)) = count_frustrated_edges g p := by
  unfold countFrustratedMask count_frustrated_edges
  apply List.countP_congr
  intro e he
  obtain ⟨h1, h2, _, _⟩ := hwf.2.1 e he
  have e1 : decide (e.1 ∈ partitionOf g (maskOf (g.nodes.map p))) = p e.1 := by
    cases hp : p e.1 <;> simp [mem_partitionOf_maskOf, h1, hp]
  have e2 : decide (e.2.1 ∈ partitionOf g (maskOf (g.nodes.map p))) = p e.2.1 := by
    cases hp : p e.2.1 <;> simp [mem_partitionOf_maskOf, h2, hp]
  unfold frustEdge
  simp only [e1, e2]

lemma foldl_min_le_init (l : List Nat) : ∀ a : Nat, l.foldl min a ≤ a := by
  induction l with
  | nil => intro a; exact le_refl a
  | cons b l ih =>
    intro a
    exact le_trans (ih (min a b)) (min_le_left a b)

lemma foldl_min_le_mem (l : List Nat) : ∀ a x : Nat, x ∈ l → l.foldl min a ≤ x := by
  induction l with
  | nil => intro a x hx; cases hx
  | cons b l ih =>
    intro a x hx
    rcases List.mem_cons.mp hx with rfl | hx
    · exact le_trans (foldl_min_le_init l (min a x)) (min_le_right a x)
    · exact ih (min a b) x hx

lemma foldl_min_mem_or (l : List Nat) : ∀ a : Nat, l.foldl min a = a ∨ l.foldl min a ∈ l := by
  induction l with
  | nil => intro a; left; rfl
  | cons b l ih =>
    intro a
    rcases ih (min a b) with h | h
    · rcases min_choice a b with hab | hab
      · left; rw [List.foldl_cons, h, hab]
      · right; rw [List.foldl_cons, h, hab]; exact List.mem_cons_self _ _
    · right; exact List.mem_cons_of_mem _ h

lemma pyMinLoop_some (l : List Nat) : ∀ a : Nat, pyMinLoop l (some a) = some (l.foldl min a) := by
  induction l with
  | nil => intro a; rfl
  | cons c l ih => intro a; exact ih (min a c)

lemma pyMin_spec (c : Nat) (cs : List Nat) :
    (pyMinLoop (c :: cs) none).getD 0 ∈ c :: cs ∧
      ∀ x ∈ c :: cs, (pyMinLoop (c :: cs) none).getD 0 ≤ x := by
  have h : pyMinLoop (c :: cs) none = some (cs.foldl min c) := pyMinLoop_some cs c
  rw [h]
  constructor
  · rcases foldl_min_mem_or cs c with h1 | h1
    · rw [Option.getD_some, h1]; exact List.mem_cons_self _ _
    · exact List.mem_cons_of_mem _ (by rw [Option.getD_some]; exact h1)
  · intro x hx
    rcases List.mem_cons.mp hx with rfl | hx
    · exact foldl_min_le_init cs x
    · exact foldl_min_le_mem cs c x hx

lemma counts_ne_nil (g : SGraph) :
    (List.range (2 ^ g.nodes.length)).map (countFrustratedMask g) ≠ [] := by
  intro h
  have hlen := congrArg List.length h
  rw [List.length_map, List.length_range] at hlen
  exact absurd hlen (Nat.pos_iff_ne_zero.mp (Nat.pos_pow_of_pos _ (by norm_num)))

lemma compute_frustration_exact_le (g : SGraph) {x : Nat}
    (hx : x ∈ (List.range (2 ^ g.nodes.length)).map (countFrustratedMask g)) :
    compute_frustration_exact g ≤ x := by
  unfold compute_frustration_exact
  cases hL : (List.range (2 ^ g.nodes.length)).map (countFrustratedMask g) with
  | nil => exact absurd hL (counts_ne_nil g)
  | cons c cs => exact (pyMin_spec c cs).2 x (hL ▸ hx)

lemma compute_frustration_exact_mem (g : SGraph) :
    compute_frustration_exact g ∈
      (List.range (2 ^ g.nodes.length)).map (countFrustratedMask g) := by
  unfold compute_frustration_exact
  cases hL : (List.range (2 ^ g.nodes.length)).map (countFrustratedMask g) with
  | nil => exact absurd hL (counts_ne_nil g)
  | cons c cs => exact (pyMin_spec c cs).1

/-- C5: for a well-formed signed graph with at most 20 nodes,
`compute_frustration_index` is the minimum frustrated-edge count over all
bipartitions (every bipartition is a membership test `p`, and every mask
realizes one), and it is `0` for the empty graph. -/
theorem C5_frustration_index_minimum (g : SGraph) (f : Nat → ℚ)
    (hwf : SWellFormed g) (hn : g.nodes.length ≤ 20) :
    (g.nodes.length = 0 → compute_frustration_index g f = 0) ∧
    (∀ p : Nat → Bool, compute_frustration_index g f ≤ count_frustrated_edges g p) ∧
    (∃ p : Nat → Bool, compute_frustration_index g f = count_frustrated_edges g p) := by
  by_cases h0 : g.nodes.length = 0
  · have hedges : g.edges = [] := by
      cases hE : g.edges with
      | nil => rfl
      | cons e es =>
        have hmem := (hwf.2.1 e (by rw [hE]; exact List.mem_cons_self _ _)).1
        rw [List.length_eq_zero.mp h0] at hmem
        cases hmem
    have hcfi : compute_frustration_index g f = 0 := by
      simp [compute_frustration_index, h0]
    refine ⟨fun _ => hcfi, ?_, ⟨fun _ => true, ?_⟩⟩
    · intro p; rw [hcfi]; exact Nat.zero_le _
    · rw [hcfi]; unfold count_frustrated_edges; rw [hedges]; rfl
  · have hcfi : compute_frustration_index g f = compute_frustration_exact g := by
      unfold compute_frustration_index
      rw [if_neg h0, if_pos hn]
    refine ⟨fun hc => absurd hc h0, ?_, ?_⟩
    · intro p
      have hm : maskOf (g.nodes.map p) < 2 ^ g.nodes.length := by
        have := maskOf_lt (g.nodes.map p)
        rwa [List.length_map] at this
      have hmem : countFrustratedMask g (maskOf (g.nodes.map p)) ∈
          (List.range (2 ^ g.nodes.length)).map (countFrustratedMask g) :=
        List.mem_map_of_mem _ (List.mem_range.mpr hm)
      rw [hcfi, ← count_mask_maskOf g hwf p]
      exact compute_frustration_exact_le g hmem
    · obtain ⟨m, _, heq⟩ := List.mem_map.mp (compute_frustration_exact_mem g)
      exact ⟨fun v => decide (v ∈ partitionOf g m), by rw [hcfi, ← heq]; rfl⟩

/-- Witness for C5 on the one-negative-edge triangle: its frustration index
is computed, bounded by the all-in-one-part bipartition, and attained. -/
theorem C5_frustration_index_minimum_witness :
    SWellFormed ⟨[0, 1, 2], [(0, 1, 1), (1, 2, 1), (0, 2, -1)]⟩ ∧
    compute_frustration_index ⟨[0, 1, 2], [(0, 1, 1), (1, 2, 1), (0, 2, -1)]⟩ (fun _ => 0) ≤
      count_frustrated_edges ⟨[0, 1, 2], [(0, 1, 1), (1, 2, 1), (0, 2, -1)]⟩ (fun _ => false) :=
  ⟨by decide,
   (C5_frustration_index_minimum ⟨[0, 1, 2], [(0, 1, 1), (1, 2, 1), (0, 2, -1)]⟩
      (fun _ => 0) (by decide) (by decide)).2.1 (fun _ => false)⟩

/-- C2: on a signed graph with fewer than two nodes, both
`find_frustrated_edges` and `compute_structural_balance` raise (accessing
eigenvector column 1 of a matrix with fewer than two columns) instead of
degenerating to the all-nodes-in-A bipartition. -/
theorem C2_small_graph_raises (g : SGraph) (f : Nat → ℚ) (h : g.nodes.length < 2) :
    find_frustrated_edges g f = Except.error "IndexError" ∧
    compute_structural_balance g f = Except.error "IndexError" := by
  have hf : find_frustrated_edges g f = Except.error "IndexError" := by
    unfold find_frustrated_edges
    rw [if_pos h]
  exact ⟨hf, by unfold compute_structural_balance; rw [hf]⟩

/-- Witness for C2: the single-node and the empty signed graphs both make
`find_frustrated_edges` and `compute_structural_balance` fail. -/
theorem C2_small_graph_raises_witness :
    find_frustrated_edges ⟨[0], []⟩ (fun _ => 0) = Except.error "IndexError" ∧
    compute_structural_balance ⟨[], []⟩ (fun _ => 0) = Except.error "IndexError" :=
  ⟨(C2_small_graph_raises ⟨[0], []⟩ (fun _ => 0) (by decide)).1,
   (C2_small_graph_raises ⟨[], []⟩ (fun _ => 0) (by decide)).2⟩

lemma edgeBetween_symm (e : Nat × Nat × Int) (a b : Nat) :
    edgeBetween e a b = edgeBetween e b a := by
  unfold edgeBetween; exact Bool.or_comm _ _

lemma hasEdgeB_symm (g : SGraph) (a b : Nat) : hasEdgeB g a b = hasEdgeB g b a := by
  unfold hasEdgeB
  congr 1
  funext e
  exact edgeBetween_symm e a b

lemma esign_symm (g : SGraph) (a b : Nat) : esign g a b = esign g b a := by
  unfold esign
  have h : (fun e => edgeBetween e a b) = (fun e => edgeBetween e b a) :=
    funext (fun e => edgeBetween_symm e a b)
  rw [h]

lemma edgeBetween_eq {e : Nat × Nat × Int} {a b : Nat} (h : edgeBetween e a b = true) :
    (e.1 = a ∧ e.2.1 = b) ∨ (e.1 = b ∧ e.2.1 = a) := by
  unfold edgeBetween at h
  simp only [Bool.or_eq_true, Bool.and_eq_true, beq_iff_eq] at h
  exact h

lemma hasEdgeB_exists {g : SGraph} {a b : Nat} (h : hasEdgeB g a b = true) :
    ∃ e ∈ g.edges, edgeBetween e a b = true := by
  unfold hasEdgeB at h
  simpa [List.any_eq_true] using h

lemma hasEdgeB_ne {g : SGraph} (hwf : SWellFormed g) {a b : Nat}
    (h : hasEdgeB g a b = true) : a ≠ b := by
  obtain ⟨e, hmem, hbe⟩ := hasEdgeB_exists h
  have hd := (hwf.2.1 e hmem).2.2.1
  rcases edgeBetween_eq hbe with ⟨h1, h2⟩ | ⟨h1, h2⟩
  · rw [← h1, ← h2]; exact hd
  · rw [← h1, ← h2]; exact hd.symm

lemma hasEdgeB_mem {g : SGraph} (hwf : SWellFormed g) {a b : Nat}
    (h : hasEdgeB g a b = true) : a ∈ g.nodes ∧ b ∈ g.nodes := by
  obtain ⟨e, hmem, hbe⟩ := hasEdgeB_exists h
  obtain ⟨h1, h2, _, _⟩ := hwf.2.1 e hmem
  rcases edgeBetween_eq hbe with ⟨ha, hb⟩ | ⟨ha, hb⟩
  · exact ⟨ha ▸ h1, hb ▸ h2⟩
  · exact ⟨hb ▸ h2, ha ▸ h1⟩

lemma esign_pm {g : SGraph} (hwf : SWellFormed g) {a b : Nat}
    (h : hasEdgeB g a b = true) : esign g a b = 1 ∨ esign g a b = -1 := by
  obtain ⟨e, hmem, hbe⟩ := hasEdgeB_exists h
  have hsome : (g.edges.find? (fun e => edgeBetween e a b)).isSome = true :=
    List.find?_isSome.mpr ⟨e, hmem, hbe⟩
  obtain ⟨f, hf⟩ := Option.isSome_iff_exists.mp hsome
  have hfm := List.mem_of_find?_eq_some hf
  have := (hwf.2.1 f hfm).2.2.2
  unfold esign
  rw [hf]
  rcases this with h1 | h1
  · left; exact h1
  · right; exact h1

lemma mem_nbrs {g : SGraph} (hwf : SWellFormed g) {a u : Nat} :
    u ∈ nbrs g a ↔ hasEdgeB g a u = true ∧ u ∈ g.nodes := by
  unfold nbrs
  rw [List.mem_filterMap]
  constructor
  · rintro ⟨e, hmem, hf⟩
    by_cases h1 : e.1 = a
    · rw [if_pos h1] at hf
      injection hf with hf
      refine ⟨?_, hf ▸ (hwf.2.1 e hmem).2.1⟩
      unfold hasEdgeB
      rw [List.any_eq_true]
      exact ⟨e, hmem, by unfold edgeBetween; simp [h1, hf]⟩
    · rw [if_neg h1] at hf
      by_cases h2 : e.2.1 = a
      · rw [if_pos h2] at hf
        injection hf with hf
        refine ⟨?_, hf ▸ (hwf.2.1 e hmem).1⟩
        unfold hasEdgeB
        rw [List.any_eq_true]
        exact ⟨e, hmem, by unfold edgeBetween; simp [h2, hf]⟩
      · rw [if_neg h2] at hf; cases hf
  · rintro ⟨he, _⟩
    obtain ⟨e, hmem, hbe⟩ := hasEdgeB_exists he
    have hd := (hwf.2.1 e hmem).2.2.1
    rcases edgeBetween_eq hbe with ⟨h1, h2⟩ | ⟨h1, h2⟩
    · exact ⟨e, hmem, by rw [if_pos h1]; exact congrArg some h2⟩
    · refine ⟨e, hmem, ?_⟩
      have hne : e.1 ≠ a := fun hc => hd (hc.trans h2.symm)
      rw [if_neg hne, if_pos h2]
      exact congrArg some h1

lemma nbrsAux_nodup (a : Nat) : ∀ es : List (Nat × Nat × Int),
    es.Pairwise (fun e f => ¬ sameEdgePair e f) →
    (es.filterMap (fun e =>
      if e.1 = a then some e.2.1 else if e.2.1 = a then some e.1 else none)).Nodup := by
  intro es
  induction es with
  | nil => intro _; simp
  | cons e es ih =>
    intro hp
    obtain ⟨hhead, htail⟩ := List.pairwise_cons.mp hp
    rw [List.filterMap_cons]
    cases hfe : (if e.1 = a then some e.2.1 else if e.2.1 = a then some e.1 else none) with
    | none => exact ih htail
    | some x =>
      rw [List.nodup_cons]
      refine ⟨?_, ih htail⟩
      intro hx
      obtain ⟨f, hfmem, hff⟩ := List.mem_filterMap.mp hx
      apply hhead f hfmem
      unfold sameEdgePair
      by_cases he1 : e.1 = a
      · rw [if_pos he1] at hfe
        injection hfe with hfe
        by_cases hf1 : f.1 = a
        · rw [if_pos hf1] at hff
          injection hff with hff
          left; rw [he1, hf1, hfe, hff]; exact ⟨rfl, rfl⟩
        · rw [if_neg hf1] at hff
          by_cases hf2 : f.2.1 = a
          · rw [if_pos hf2] at hff
            injection hff with hff
            right; rw [he1, hf2, hfe, hff]; exact ⟨rfl, rfl⟩
          · rw [if_neg hf2] at hff; cases hff
      · rw [if_neg he1] at hfe
        by_cases he2 : e.2.1 = a
        · rw [if_pos he2] at hfe
          injection hfe with hfe
          by_cases hf1 : f.1 = a
          · rw [if_pos hf1] at hff
            injection hff with hff
            right; rw [he2, hf1, hfe, hff]; exact ⟨rfl, rfl⟩
          · rw [if_neg hf1] at hff
            by_cases hf2 : f.2.1 = a
            · rw [if_pos hf2] at hff
              injection hff with hff
              left; rw [he2, hf2, hfe, hff]; exact ⟨rfl, rfl⟩
            · rw [if_neg hf2] at hff; cases hff
        · rw [if_neg he2] at hfe; cases hfe

lemma nbrs_nodup (g : SGraph) (hwf : SWellFormed g) (a : Nat) : (nbrs g a).Nodup :=
  nbrsAux_nodup a g.edges hwf.2.2

lemma idx_lt (g : SGraph) {v : Nat} (h : v ∈ g.nodes) : idxOfN g v < g.nodes.length :=
  List.indexOf_lt_length.mpr h

lemma ndAt_idx (g : SGraph) {v : Nat} (h : v ∈ g.nodes) : ndAt g (idxOfN g v) = v := by
  unfold ndAt idxOfN
  rw [List.getD_eq_getElem _ _ (List.indexOf_lt_length.mpr h)]
  exact List.getElem_indexOf _

lemma idx_ndAt (g : SGraph) (hnd : g.nodes.Nodup) {i : Nat} (h : i < g.nodes.length) :
    idxOfN g (ndAt g i) = i := by
  unfold ndAt idxOfN
  rw [List.getD_eq_getElem _ _ h]
  have := List.get_indexOf hnd ⟨i, h⟩
  simpa [List.get_eq_getElem] using this

lemma ndAt_mem (g : SGraph) {i : Nat} (h : i < g.nodes.length) : ndAt g i ∈ g.nodes := by
  unfold ndAt
  rw [List.getD_eq_getElem _ _ h]
  exact List.getElem_mem h

lemma idx_inj (g : SGraph) {u v : Nat} (hu : u ∈ g.nodes) (hv : v ∈ g.nodes)
    (h : idxOfN g u = idxOfN g v) : u = v := by
  have := congrArg (ndAt g) h
  rwa [ndAt_idx g hu, ndAt_idx g hv] at this

lemma countP_list_toFinset (xs : List Nat) (hnd : xs.Nodup) (p : Nat → Bool) :
    (xs.toFinset.filter (fun y => p y = true)).card = xs.countP p := by
  rw [← List.toFinset_filter, List.card_toFinset, List.Nodup.dedup (hnd.filter p),
    List.countP_eq_length_filter]

lemma two_mul_countP_pairsAfter :
    ∀ (l : List Nat), l.Nodup → ∀ (q : Nat → Nat → Bool), (∀ x y, q x y = q y x) →
    2 * (pairsAfter l).countP (fun p => q p.1 p.2) =
      ((l.toFinset ×ˢ l.toFinset).filter
        (fun p => p.1 ≠ p.2 ∧ q p.1 p.2 = true)).card := by
  intro l
  induction l with
  | nil =>
    intro _ q _
    simp [pairsAfter]
  | cons x xs ih =>
    intro hnd q hq
    obtain ⟨hx, hxs⟩ := List.nodup_cons.mp hnd
    have hxF : x ∉ xs.toFinset := by simpa using hx
    have hL : (pairsAfter (x :: xs)).countP (fun p => q p.1 p.2) =
        xs.countP (fun y => q x y) + (pairsAfter xs).countP (fun p => q p.1 p.2) := by
      show ((xs.map (fun y => (x, y))) ++ pairsAfter xs).countP _ = _
      rw [List.countP_append, List.countP_map]
      rfl
    have htf : (x :: xs).toFinset = insert x xs.toFinset := by simp
    set X := xs.toFinset with hX
    set P : Nat × Nat → Prop := fun p => p.1 ≠ p.2 ∧ q p.1 p.2 = true with hP
    set F := ((insert x X) ×ˢ (insert x X)).filter P with hF
    have hsplit1 : F.card = (F.filter (fun p => p.1 = x)).card +
        (F.filter (fun p => ¬ p.1 = x)).card := by
      rw [← Finset.card_union_of_disjoint (Finset.disjoint_filter_filter_neg F F _),
        Finset.filter_union_filter_neg_eq]
    have hsplit2 : (F.filter (fun p => ¬ p.1 = x)).card =
        ((F.filter (fun p => ¬ p.1 = x)).filter (fun p => p.2 = x)).card +
        ((F.filter (fun p => ¬ p.1 = x)).filter (fun p => ¬ p.2 = x)).card := by
      rw [← Finset.card_union_of_disjoint (Finset.disjoint_filter_filter_neg _ _ _),
        Finset.filter_union_filter_neg_eq]
    have hF1 : F.filter (fun p => p.1 = x) =
        (X.filter (fun y => q x y = true)).image (fun y => (x, y)) := by
      ext ⟨a, b⟩
      simp only [hF, hP, Finset.mem_filter, Finset.mem_product, Finset.mem_insert,
        Finset.mem_image]
      constructor
      · rintro ⟨⟨⟨ha, hb⟩, hne, hqv⟩, hax⟩
        subst hax
        have hbX : b ∈ X := by
          rcases hb with rfl | hb
          · exact absurd rfl hne
          · exact hb
        exact ⟨b, ⟨hbX, hqv⟩, rfl⟩
      · rintro ⟨y, ⟨hyX, hqy⟩, heq⟩
        obtain ⟨h1, h2⟩ := Prod.mk.injEq _ _ _ _ ▸ heq
        subst h1; subst h2
        refine ⟨⟨⟨Or.inl rfl, Or.inr hyX⟩, ?_, hqy⟩, rfl⟩
        intro hc
        exact hxF (hc ▸ hyX)
    have hF2a : (F.filter (fun p => ¬ p.1 = x)).filter (fun p => p.2 = x) =
        (X.filter (fun y => q x y = true)).image (fun y => (y, x)) := by
      ext ⟨a, b⟩
      simp only [hF, hP, Finset.mem_filter, Finset.mem_product, Finset.mem_insert,
        Finset.mem_image]
      constructor
      · rintro ⟨⟨⟨⟨ha, hb⟩, hne, hqv⟩, hax⟩, hbx⟩
        subst hbx
        have haX : a ∈ X := by
          rcases ha with rfl | ha
          · exact absurd rfl hax
          · exact ha
        exact ⟨a, ⟨haX, by rw [hq]; exact hqv⟩, rfl⟩
      · rintro ⟨y, ⟨hyX, hqy⟩, heq⟩
        obtain ⟨h1, h2⟩ := Prod.mk.injEq _ _ _ _ ▸ heq
        subst h1; subst h2
        have hyx : ¬ y = x := fun hc => hxF (hc ▸ hyX)
        exact ⟨⟨⟨⟨Or.inr hyX, Or.inl rfl⟩, hyx, by rw [← hq]; exact hqy⟩, hyx⟩, rfl⟩
    have hF2b : (F.filter (fun p => ¬ p.1 = x)).filter (fun p => ¬ p.2 = x) =
        (X ×ˢ X).filter P := by
      ext ⟨a, b⟩
      simp only [hF, hP, Finset.mem_filter, Finset.mem_product, Finset.mem_insert]
      constructor
      · rintro ⟨⟨⟨⟨ha, hb⟩, hpv⟩, hax⟩, hbx⟩
        have haX : a ∈ X := by
          rcases ha with rfl | ha
          · exact absurd rfl hax
          · exact ha
        have hbX : b ∈ X := by
          rcases hb with rfl | hb
          · exact absurd rfl hbx
          · exact hb
        exact ⟨⟨haX, hbX⟩, hpv⟩
      · rintro ⟨⟨haX, hbX⟩, hpv⟩
        have hax : ¬ a = x := fun hc => hxF (hc ▸ haX)
        have hbx : ¬ b = x := fun hc => hxF (hc ▸ hbX)
        exact ⟨⟨⟨⟨Or.inr haX, Or.inr hbX⟩, hpv⟩, hax⟩, hbx⟩
    have hinj1 : Function.Injective (fun y : Nat => (x, y)) := by
      intro u v huv
      exact (Prod.ext_iff.mp huv).2
    have hinj2 : Function.Injective (fun y : Nat => (y, x)) := by
      intro u v huv
      exact (Prod.ext_iff.mp huv).1
    have hc1 : (F.filter (fun p => p.1 = x)).card = xs.countP (fun y => q x y) := by
      rw [hF1, Finset.card_image_of_injective _ hinj1, countP_list_toFinset xs hxs]
    have hc2a : ((F.filter (fun p => ¬ p.1 = x)).filter (fun p => p.2 = x)).card =
        xs.countP (fun y => q x y) := by
      rw [hF2a, Finset.card_image_of_injective _ hinj2, countP_list_toFinset xs hxs]
    have hc2b : ((F.filter (fun p => ¬ p.1 = x)).filter (fun p => ¬ p.2 = x)).card =
        2 * (pairsAfter xs).countP (fun p => q p.1 p.2) := by
      rw [hF2b, ← ih hxs q hq]
    rw [htf, hL]
    show 2 * (xs.countP (fun y => q x y) + (pairsAfter xs).countP (fun p => q p.1 p.2)) =
      F.card
    rw [hsplit1, hsplit2, hc1, hc2a, hc2b]
    ring

lemma nbrs_toFinset (g : SGraph) (hwf : SWellFormed g) (a : Nat) :
    (nbrs g a).toFinset = (nodesF g).filter (fun u => hasEdgeB g a u = true) := by
  ext u
  simp only [List.mem_toFinset, Finset.mem_filter, nodesF]
  rw [mem_nbrs hwf]
  tauto

lemma pairSet_eq (g : SGraph) (hwf : SWellFormed g)
    (R : Nat → Nat → Nat → Bool) (a : Nat) :
    ((nbrs g a).toFinset ×ˢ (nbrs g a).toFinset).filter
      (fun p => p.1 ≠ p.2 ∧ (R a p.1 p.2 && hasEdgeB g p.1 p.2) = true) =
    pairSet g R a := by
  ext ⟨u, v⟩
  simp only [Finset.mem_filter, Finset.mem_product, List.mem_toFinset, pairSet, nodesF,
    Bool.and_eq_true]
  rw [mem_nbrs hwf, mem_nbrs hwf]
  constructor
  · rintro ⟨⟨⟨heu, hu⟩, hev, hv⟩, _, hR, hE⟩
    exact ⟨⟨hu, hv⟩, heu, hev, hE, hR⟩
  · rintro ⟨⟨hu, hv⟩, heu, hev, hE, hR⟩
    exact ⟨⟨⟨heu, hu⟩, hev, hv⟩, hasEdgeB_ne hwf hE, hR, hE⟩

lemma two_mul_cntR (g : SGraph) (hwf : SWellFormed g)
    (R : Nat → Nat → Nat → Bool) (hR1 : ∀ a x y, R a x y = R a y x) (a : Nat) :
    2 * cntR g R a = (pairSet g R a).card := by
  have hq : ∀ x y, (R a x y && hasEdgeB g x y) = (R a y x && hasEdgeB g y x) := by
    intro x y; rw [hR1 a x y, hasEdgeB_symm g x y]
  have h2 := two_mul_countP_pairsAfter (nbrs g a) (nbrs_nodup g hwf a)
      (fun x y => R a x y && hasEdgeB g x y) hq
  unfold cntR
  rw [h2, pairSet_eq g hwf R a]

lemma card_triScan (g : SGraph) (R : Nat → Nat → Nat → Bool) :
    (triScan g R).card = ∑ a ∈ nodesF g, (pairSet g R a).card := by
  have hmap : ∀ o ∈ triScan g R, o.1 ∈ nodesF g := by
    intro o ho
    exact (Finset.mem_product.mp (Finset.mem_filter.mp ho).1).1
  rw [Finset.card_eq_sum_card_fiberwise hmap]
  apply Finset.sum_congr rfl
  intro a haF
  have himg : (triScan g R).filter (fun o => o.1 = a) =
      (pairSet g R a).image (fun p => (a, p)) := by
    ext ⟨b, u, v⟩
    simp only [triScan, pairSet, Finset.mem_filter, Finset.mem_product, Finset.mem_image]
    constructor
    · rintro ⟨⟨⟨hb, hu, hv⟩, h1, h2, h3, h4⟩, hba⟩
      subst hba
      exact ⟨(u, v), ⟨⟨hu, hv⟩, h1, h2, h3, h4⟩, rfl⟩
    · rintro ⟨⟨u', v'⟩, ⟨⟨hu, hv⟩, h1, h2, h3, h4⟩, heq⟩
      injection heq with hb hp
      injection hp with hu' hv'
      subst hb; subst hu'; subst hv'
      exact ⟨⟨⟨haF, hu, hv⟩, h1, h2, h3, h4⟩, rfl⟩
  rw [himg, Finset.card_image_of_injective _ (fun u v huv => (Prod.ext_iff.mp huv).2)]

lemma sort3_mem (p q r : Nat) :
    sort3 p q r = (p, q, r) ∨ sort3 p q r = (p, r, q) ∨ sort3 p q r = (q, p, r) ∨
    sort3 p q r = (q, r, p) ∨ sort3 p q r = (r, p, q) ∨ sort3 p q r = (r, q, p) := by
  unfold sort3
  split_ifs <;> tauto

lemma sort3_sorted (p q r : Nat) :
    (sort3 p q r).1 ≤ (sort3 p q r).2.1 ∧ (sort3 p q r).2.1 ≤ (sort3 p q r).2.2 := by
  unfold sort3
  split_ifs <;> refine ⟨?_, ?_⟩ <;> simp <;> omega

lemma sort3_eval {i j k : Nat} (hij : i < j) (hjk : j < k) :
    sort3 i j k = (i, j, k) ∧ sort3 i k j = (i, j, k) ∧ sort3 j i k = (i, j, k) ∧
    sort3 j k i = (i, j, k) ∧ sort3 k i j = (i, j, k) ∧ sort3 k j i = (i, j, k) := by
  unfold sort3
  refine ⟨?_, ?_, ?_, ?_, ?_, ?_⟩ <;> split_ifs <;> first | rfl | (exfalso; omega)

lemma sort3_inv {p q r i j k : Nat} (h : sort3 p q r = (i, j, k)) :
    (p = i ∧ q = j ∧ r = k) ∨ (p = i ∧ q = k ∧ r = j) ∨ (p = j ∧ q = i ∧ r = k) ∨
    (p = j ∧ q = k ∧ r = i) ∨ (p = k ∧ q = i ∧ r = j) ∨ (p = k ∧ q = j ∧ r = i) := by
  unfold sort3 at h
  split_ifs at h <;> (injection h with h1 h23; injection h23 with h2 h3) <;> tauto

lemma sort3_strict {p q r i j k : Nat} (hpq : p ≠ q) (hpr : p ≠ r) (hqr : q ≠ r)
    (h : sort3 p q r = (i, j, k)) : i < j ∧ j < k := by
  have hs := sort3_sorted p q r
  rw [h] at hs
  simp only at hs
  rcases sort3_inv h with h6 | h6 | h6 | h6 | h6 | h6 <;>
    obtain ⟨rfl, rfl, rfl⟩ := h6 <;> omega

lemma Rperm (R : Nat → Nat → Nat → Bool) (hR1 : ∀ a x y, R a x y = R a y x)
    (hR2 : ∀ a x y, R a x y = R x a y) (a u v : Nat) :
    R a u v = R a v u ∧ R a u v = R u a v ∧ R a u v = R u v a ∧
    R a u v = R v a u ∧ R a u v = R v u a := by
  have h3 : R a u v = R u v a := by rw [hR2 a u v, hR1 u a v]
  have h4 : R a u v = R v a u := by rw [hR1 a u v, hR2 a v u]
  have h5 : R a u v = R v u a := by rw [h4, hR1 v a u]
  exact ⟨hR1 a u v, hR2 a u v, h3, h4, h5⟩

lemma sortFn_maps (g : SGraph) (hwf : SWellFormed g) (R : Nat → Nat → Nat → Bool)
    (hR1 : ∀ a x y, R a x y = R a y x) (hR2 : ∀ a x y, R a x y = R x a y) :
    ∀ o ∈ triScan g R, sortFn g o ∈ triFinset g R := by
  rintro ⟨a, u, v⟩ ho
  simp only [triScan, Finset.mem_filter, Finset.mem_product, nodesF,
    List.mem_toFinset] at ho
  obtain ⟨⟨haN, huN, hvN⟩, h1, h2, h3, h4⟩ := ho
  have hau : a ≠ u := hasEdgeB_ne hwf h1
  have hav : a ≠ v := hasEdgeB_ne hwf h2
  have huv : u ≠ v := hasEdgeB_ne hwf h3
  have hiau : idxOfN g a ≠ idxOfN g u := fun hc => hau (idx_inj g haN huN hc)
  have hiav : idxOfN g a ≠ idxOfN g v := fun hc => hav (idx_inj g haN hvN hc)
  have hiuv : idxOfN g u ≠ idxOfN g v := fun hc => huv (idx_inj g huN hvN hc)
  have h1' : hasEdgeB g u a = true := by rw [hasEdgeB_symm]; exact h1
  have h2' : hasEdgeB g v a = true := by rw [hasEdgeB_symm]; exact h2
  have h3' : hasEdgeB g v u = true := by rw [hasEdgeB_symm]; exact h3
  have hRp := Rperm R hR1 hR2 a u v
  have hr1 : R a v u = true := by rw [← hRp.1]; exact h4
  have hr2 : R u a v = true := by rw [← hRp.2.1]; exact h4
  have hr3 : R u v a = true := by rw [← hRp.2.2.1]; exact h4
  have hr4 : R v a u = true := by rw [← hRp.2.2.2.1]; exact h4
  have hr5 : R v u a = true := by rw [← hRp.2.2.2.2]; exact h4
  rcases hsort : sort3 (idxOfN g a) (idxOfN g u) (idxOfN g v) with ⟨i, j, k⟩
  have hout : sortFn g (a, u, v) = (i, j, k) := hsort
  rw [hout]
  obtain ⟨hij, hjk⟩ := sort3_strict hiau hiav hiuv hsort
  simp only [triFinset, Finset.mem_filter, Finset.mem_product, Finset.mem_range]
  rcases sort3_inv hsort with hp | hp | hp | hp | hp | hp <;>
    obtain ⟨rfl, rfl, rfl⟩ := hp <;>
    refine ⟨⟨?_, ?_, ?_⟩, hij, hjk, ?_, ?_, ?_, ?_⟩ <;>
    (try simp only [ndAt_idx g haN, ndAt_idx g huN, ndAt_idx g hvN]) <;>
    first
      | exact idx_lt g haN | exact idx_lt g huN | exact idx_lt g hvN
      | exact h1 | exact h2 | exact h3 | exact h1' | exact h2' | exact h3'
      | exact h4 | exact hr1 | exact hr2 | exact hr3 | exact hr4 | exact hr5

lemma fiber_card (g : SGraph) (hwf : SWellFormed g) (R : Nat → Nat → Nat → Bool)
    (hR1 : ∀ a x y, R a x y = R a y x) (hR2 : ∀ a x y, R a x y = R x a y) :
    ∀ t ∈ triFinset g R, ((triScan g R).filter (fun o => sortFn g o = t)).card = 6 := by
  rintro ⟨i, j, k⟩ ht
  simp only [triFinset, Finset.mem_filter, Finset.mem_product, Finset.mem_range] at ht
  obtain ⟨⟨hi, hj, hk⟩, hij, hjk, e1, e2, e3, hr⟩ := ht
  have hnd := hwf.1
  obtain ⟨vi, hvi⟩ : ∃ x, ndAt g i = x := ⟨_, rfl⟩
  obtain ⟨vj, hvj⟩ : ∃ x, ndAt g j = x := ⟨_, rfl⟩
  obtain ⟨vk, hvk⟩ : ∃ x, ndAt g k = x := ⟨_, rfl⟩
  rw [hvi, hvj] at e1
  rw [hvi, hvk] at e2
  rw [hvj, hvk] at e3
  rw [hvi, hvj, hvk] at hr
  have hviN : vi ∈ g.nodes := hvi ▸ ndAt_mem g hi
  have hvjN : vj ∈ g.nodes := hvj ▸ ndAt_mem g hj
  have hvkN : vk ∈ g.nodes := hvk ▸ ndAt_mem g hk
  have hIi : idxOfN g vi = i := hvi ▸ idx_ndAt g hnd hi
  have hIj : idxOfN g vj = j := hvj ▸ idx_ndAt g hnd hj
  have hIk : idxOfN g vk = k := hvk ▸ idx_ndAt g hnd hk
  have hvij : vi ≠ vj := by
    intro hc
    have hcc := congrArg (idxOfN g) hc
    rw [hIi, hIj] at hcc
    omega
  have hvik : vi ≠ vk := by
    intro hc
    have hcc := congrArg (idxOfN g) hc
    rw [hIi, hIk] at hcc
    omega
  have hvjk : vj ≠ vk := by
    intro hc
    have hcc := congrArg (idxOfN g) hc
    rw [hIj, hIk] at hcc
    omega
  have e1' : hasEdgeB g vj vi = true := by rw [hasEdgeB_symm]; exact e1
  have e2' : hasEdgeB g vk vi = true := by rw [hasEdgeB_symm]; exact e2
  have e3' : hasEdgeB g vk vj = true := by rw [hasEdgeB_symm]; exact e3
  have hRp := Rperm R hR1 hR2 vi vj vk
  have hrA : R vi vk vj = true := by rw [← hRp.1]; exact hr
  have hrB : R vj vi vk = true := by rw [← hRp.2.1]; exact hr
  have hrC : R vj vk vi = true := by rw [← hRp.2.2.1]; exact hr
  have hrD : R vk vi vj = true := by rw [← hRp.2.2.2.1]; exact hr
  have hrE : R vk vj vi = true := by rw [← hRp.2.2.2.2]; exact hr
  have heval := sort3_eval hij hjk
  have hEq : (triScan g R).filter (fun o => sortFn g o = (i, j, k)) =
      ({(vi, vj, vk), (vi, vk, vj), (vj, vi, vk), (vj, vk, vi), (vk, vi, vj),
        (vk, vj, vi)} : Finset (Nat × Nat × Nat)) := by
    ext ⟨b, u, v⟩
    simp only [Finset.mem_filter, triScan, Finset.mem_product, nodesF, List.mem_toFinset,
      Finset.mem_insert, Finset.mem_singleton]
    constructor
    · rintro ⟨⟨⟨hbN, huN, hvN⟩, g1, g2, g3, g4⟩, hsort⟩
      have hsort' : sort3 (idxOfN g b) (idxOfN g u) (idxOfN g v) = (i, j, k) := hsort
      have hb0 := ndAt_idx g hbN
      have hu0 := ndAt_idx g huN
      have hv0 := ndAt_idx g hvN
      rcases sort3_inv hsort' with ⟨p1, p2, p3⟩ | ⟨p1, p2, p3⟩ | ⟨p1, p2, p3⟩ |
          ⟨p1, p2, p3⟩ | ⟨p1, p2, p3⟩ | ⟨p1, p2, p3⟩
      · rw [p1, hvi] at hb0; rw [p2, hvj] at hu0; rw [p3, hvk] at hv0
        subst hb0; subst hu0; subst hv0; tauto
      · rw [p1, hvi] at hb0; rw [p2, hvk] at hu0; rw [p3, hvj] at hv0
        subst hb0; subst hu0; subst hv0; tauto
      · rw [p1, hvj] at hb0; rw [p2, hvi] at hu0; rw [p3, hvk] at hv0
        subst hb0; subst hu0; subst hv0; tauto
      · rw [p1, hvj] at hb0; rw [p2, hvk] at hu0; rw [p3, hvi] at hv0
        subst hb0; subst hu0; subst hv0; tauto
      · rw [p1, hvk] at hb0; rw [p2, hvi] at hu0; rw [p3, hvj] at hv0
        subst hb0; subst hu0; subst hv0; tauto
      · rw [p1, hvk] at hb0; rw [p2, hvj] at hu0; rw [p3, hvi] at hv0
        subst hb0; subst hu0; subst hv0; tauto
    · intro hmem
      rcases hmem with heq | heq | heq | heq | heq | heq <;>
        (injection heq with hb hp; injection hp with hu hv; rw [hb, hu, hv])
      · exact ⟨⟨⟨hviN, hvjN, hvkN⟩, e1, e2, e3, hr⟩,
          by show sort3 (idxOfN g vi) (idxOfN g vj) (idxOfN g vk) = (i, j, k);
             rw [hIi, hIj, hIk]; exact heval.1⟩
      · exact ⟨⟨⟨hviN, hvkN, hvjN⟩, e2, e1, e3', hrA⟩,
          by show sort3 (idxOfN g vi) (idxOfN g vk) (idxOfN g vj) = (i, j, k);
             rw [hIi, hIj, hIk]; exact heval.2.1⟩
      · exact ⟨⟨⟨hvjN, hviN, hvkN⟩, e1', e3, e2, hrB⟩,
          by show sort3 (idxOfN g vj) (idxOfN g vi) (idxOfN g vk) = (i, j, k);
             rw [hIi, hIj, hIk]; exact heval.2.2.1⟩
      · exact ⟨⟨⟨hvjN, hvkN, hviN⟩, e3, e1', e2', hrC⟩,
          by show sort3 (idxOfN g vj) (idxOfN g vk) (idxOfN g vi) = (i, j, k);
             rw [hIi, hIj, hIk]; exact heval.2.2.2.1⟩
      · exact ⟨⟨⟨hvkN, hviN, hvjN⟩, e2', e3', e1, hrD⟩,
          by show sort3 (idxOfN g vk) (idxOfN g vi) (idxOfN g vj) = (i, j, k);
             rw [hIi, hIj, hIk]; exact heval.2.2.2.2.1⟩
      · exact ⟨⟨⟨hvkN, hvjN, hviN⟩, e3', e2', e1', hrE⟩,
          by show sort3 (idxOfN g vk) (idxOfN g vj) (idxOfN g vi) = (i, j, k);
             rw [hIi, hIj, hIk]; exact heval.2.2.2.2.2⟩
  rw [hEq]
  have m1 : (vi, vj, vk) ∉ ({(vi, vk, vj), (vj, vi, vk), (vj, vk, vi), (vk, vi, vj),
      (vk, vj, vi)} : Finset (Nat × Nat × Nat)) := by
    simp [Prod.mk.injEq, hvij, hvik, hvjk, Ne.symm hvij, Ne.symm hvik, Ne.symm hvjk]
  have m2 : (vi, vk, vj) ∉ ({(vj, vi, vk), (vj, vk, vi), (vk, vi, vj),
      (vk, vj, vi)} : Finset (Nat × Nat × Nat)) := by
    simp [Prod.mk.injEq, hvij, hvik, hvjk, Ne.symm hvij, Ne.symm hvik, Ne.symm hvjk]
  have m3 : (vj, vi, vk) ∉ ({(vj, vk, vi), (vk, vi, vj),
      (vk, vj, vi)} : Finset (Nat × Nat × Nat)) := by
    simp [Prod.mk.injEq, hvij, hvik, hvjk, Ne.symm hvij, Ne.symm hvik, Ne.symm hvjk]
  have m4 : (vj, vk, vi) ∉ ({(vk, vi, vj), (vk, vj, vi)} : Finset (Nat × Nat × Nat)) := by
    simp [Prod.mk.injEq, hvij, hvik, hvjk, Ne.symm hvij, Ne.symm hvik, Ne.symm hvjk]
  have m5 : (vk, vi, vj) ∉ ({(vk, vj, vi)} : Finset (Nat × Nat × Nat)) := by
    simp [Prod.mk.injEq, hvij, hvik, hvjk, Ne.symm hvij, Ne.symm hvik, Ne.symm hvjk]
  rw [Finset.card_insert_of_not_mem m1, Finset.card_insert_of_not_mem m2,
    Finset.card_insert_of_not_mem m3, Finset.card_insert_of_not_mem m4,
    Finset.card_insert_of_not_mem m5, Finset.card_singleton]

lemma tri_chain (g : SGraph) (hwf : SWellFormed g) (R : Nat → Nat → Nat → Bool)
    (hR1 : ∀ a x y, R a x y = R a y x) (hR2 : ∀ a x y, R a x y = R x a y) :
    (g.nodes.map (cntR g R)).sum = 3 * (triFinset g R).card := by
  have hA : (2 : Nat) * (g.nodes.map (cntR g R)).sum = ∑ a ∈ nodesF g, 2 * cntR g R a := by
    rw [← Finset.mul_sum]
    unfold nodesF
    rw [List.sum_toFinset _ hwf.1]
  have hB : ∑ a ∈ nodesF g, 2 * cntR g R a = ∑ a ∈ nodesF g, (pairSet g R a).card :=
    Finset.sum_congr rfl (fun a _ => two_mul_cntR g hwf R hR1 a)
  have hD : (triScan g R).card = 6 * (triFinset g R).card := by
    rw [Finset.card_eq_sum_card_fiberwise (sortFn_maps g hwf R hR1 hR2),
      Finset.sum_congr rfl (fiber_card g hwf R hR1 hR2), Finset.sum_const, smul_eq_mul,
      mul_comm]
  have hC := card_triScan g R
  omega

lemma countP_triEntries (g : SGraph) (P : List Int → Bool) :
    (triEntries g).countP P =
      (g.nodes.map
        (cntR g (fun a x y => P [esign g a x, esign g a y, esign g x y]))).sum := by
  unfold triEntries
  rw [List.countP_flatMap]
  congr 1
  have hf : (List.countP P ∘ fun a =>
      ((pairsAfter (nbrs g a)).filter (fun q => hasEdgeB g q.1 q.2)).map
        (fun q => [esign g a q.1, esign g a q.2, esign g q.1 q.2])) =
      cntR g (fun a x y => P [esign g a x, esign g a y, esign g x y]) := by
    funext a
    show List.countP P _ = _
    rw [List.countP_map, List.countP_filter]
    rfl
  rw [hf]

lemma length_triEntries (g : SGraph) :
    (triEntries g).length = (g.nodes.map (cntR g (fun _ _ _ => true))).sum := by
  have h2 : (triEntries g).countP (fun _ => true) = (triEntries g).length := by
    rw [List.countP_true]
  rw [← h2, countP_triEntries g (fun _ => true)]

lemma frustSigns_perm {l l' : List Int} (h : l.Perm l') : frustSigns l = frustSigns l' := by
  unfold frustSigns
  rw [h.count_eq]

lemma frustR_swap1 (g : SGraph) : ∀ a x y, frustR g a x y = frustR g a y x := by
  intro a x y
  unfold frustR
  have h1 : esign g y x = esign g x y := esign_symm g y x
  rw [h1]
  exact frustSigns_perm (List.Perm.swap _ _ _)

lemma frustR_swap2 (g : SGraph) : ∀ a x y, frustR g a x y = frustR g x a y := by
  intro a x y
  unfold frustR
  have h1 : esign g x a = esign g a x := esign_symm g x a
  rw [h1]
  exact frustSigns_perm (List.Perm.cons _ (List.Perm.swap _ _ _))

lemma triFinset_filter (g : SGraph) (R : Nat → Nat → Nat → Bool) :
    triFinset g R = (triFinset g (fun _ _ _ => true)).filter
      (fun t => R (ndAt g t.1) (ndAt g t.2.1) (ndAt g t.2.2) = true) := by
  unfold triFinset
  rw [Finset.filter_filter]
  ext t
  simp only [Finset.mem_filter, Finset.mem_product, Finset.mem_range]
  tauto

lemma card_split (g : SGraph) (hwf : SWellFormed g) :
    (triFinset g (frustR g)).card + (triFinset g (balR g)).card =
      (triFinset g (fun _ _ _ => true)).card := by
  have hpart := Finset.filter_card_add_filter_neg_card_eq_card
    (s := triFinset g (fun _ _ _ => true))
    (fun t => frustR g (ndAt g t.1) (ndAt g t.2.1) (ndAt g t.2.2) = true)
  rw [← triFinset_filter g (frustR g)] at hpart
  have hbal : (triFinset g (fun _ _ _ => true)).filter
      (fun t => ¬ frustR g (ndAt g t.1) (ndAt g t.2.1) (ndAt g t.2.2) = true) =
      triFinset g (balR g) := by
    rw [triFinset_filter g (balR g)]
    apply Finset.filter_congr
    intro t ht
    simp only [triFinset, Finset.mem_filter, Finset.mem_product, Finset.mem_range] at ht
    obtain ⟨_, _, _, e1, e2, e3, _⟩ := ht
    have s1 := esign_pm hwf e1
    have s2 := esign_pm hwf e2
    have s3 := esign_pm hwf e3
    unfold frustR balR frustSigns balSigns
    rcases s1 with h1 | h1 <;> rcases s2 with h2 | h2 <;> rcases s3 with h3 | h3 <;>
      rw [h1, h2, h3] <;> decide
  rw [hbal] at hpart
  exact hpart

/-- C7: `analyze_triangles` counts each unordered triangle (canonically, each
strictly increasing index triple with all three edges present) exactly once
in `total_triangles`; triangles with 1 or 3 negative edges are the
frustrated ones and those with 0 or 2 negative edges the balanced ones; the
ratio is `balanced / total`, and `1` when there are no triangles. -/
theorem C7_triangle_analysis (g : SGraph) (hwf : SWellFormed g) :
    (analyze_triangles g).total_triangles = (triFinset g (fun _ _ _ => true)).card ∧
    (analyze_triangles g).frustrated_triangles = (triFinset g (frustR g)).card ∧
    (analyze_triangles g).balanced_triangles = (triFinset g (balR g)).card ∧
    ((analyze_triangles g).total_triangles = 0 →
      (analyze_triangles g).balance_ratio = 1) ∧
    (0 < (analyze_triangles g).total_triangles →
      (analyze_triangles g).balance_ratio =
        ((analyze_triangles g).balanced_triangles : ℚ) /
          ((analyze_triangles g).total_triangles : ℚ)) := by
  have htrue : (triEntries g).length = 3 * (triFinset g (fun _ _ _ => true)).card := by
    rw [length_triEntries g]
    exact tri_chain g hwf _ (fun _ _ _ => rfl) (fun _ _ _ => rfl)
  have hfr : (triEntries g).countP frustSigns = 3 * (triFinset g (frustR g)).card := by
    rw [countP_triEntries g frustSigns]
    exact tri_chain g hwf (frustR g) (frustR_swap1 g) (frustR_swap2 g)
  have hsplit := card_split g hwf
  have htot : (analyze_triangles g).total_triangles =
      (triFinset g (fun _ _ _ => true)).card := by
    show (triEntries g).length / 3 = _
    rw [htrue]
    omega
  have hfr2 : (analyze_triangles g).frustrated_triangles =
      (triFinset g (frustR g)).card := by
    show (triEntries g).countP frustSigns / 3 = _
    rw [hfr]
    omega
  have hbal2 : (analyze_triangles g).balanced_triangles =
      (triFinset g (balR g)).card := by
    show (triEntries g).length / 3 - (triEntries g).countP frustSigns / 3 = _
    rw [htrue, hfr]
    omega
  refine ⟨htot, hfr2, hbal2, ?_, ?_⟩
  · intro h0
    have h0' : (triEntries g).length / 3 = 0 := h0
    show (if 0 < (triEntries g).length / 3 then
        (((triEntries g).length / 3 - (triEntries g).countP frustSigns / 3 : Nat) : ℚ) /
          (((triEntries g).length / 3 : Nat) : ℚ) else 1) = 1
    rw [h0', if_neg (lt_irrefl 0)]
  · intro hpos
    have hpos' : 0 < (triEntries g).length / 3 := hpos
    show (if 0 < (triEntries g).length / 3 then
        (((triEntries g).length / 3 - (triEntries g).countP frustSigns / 3 : Nat) : ℚ) /
          (((triEntries g).length / 3 : Nat) : ℚ) else 1) = _
    rw [if_pos hpos']
    rfl

/-- Witness for C7 on the all-positive triangle: its analysis is tied to the
canonical triangle set of the graph. -/
theorem C7_triangle_analysis_witness :
    SWellFormed ⟨[0, 1, 2], [(0, 1, 1), (1, 2, 1), (0, 2, 1)]⟩ ∧
    (analyze_triangles ⟨[0, 1, 2], [(0, 1, 1), (1, 2, 1), (0, 2, 1)]⟩).total_triangles =
      (triFinset ⟨[0, 1, 2], [(0, 1, 1), (1, 2, 1), (0, 2, 1)]⟩ (fun _ _ _ => true)).card :=
  ⟨by decide,
   (C7_triangle_analysis ⟨[0, 1, 2], [(0, 1, 1), (1, 2, 1), (0, 2, 1)]⟩ (by decide)).1⟩

lemma list_sum_zero_of_getD {M : Type} [AddCommMonoid M] :
    ∀ (l : List M), (∀ j, j < l.length → l.getD j 0 = 0) → l.sum = 0 := by
  intro l
  induction l with
  | nil => intro _; rfl
  | cons x xs ih =>
    intro h
    have hx : x = 0 := h 0 (by simp)
    have hxs : xs.sum = 0 := ih (fun j hj => h (j + 1) (by simpa using hj))
    simp [hx, hxs]

lemma list_sum_single {M : Type} [AddCommMonoid M] :
    ∀ (l : List M) (i : Nat), (∀ j, j < l.length → j ≠ i → l.getD j 0 = 0) →
      l.sum = l.getD i 0 := by
  intro l
  induction l with
  | nil => intro i _; simp
  | cons x xs ih =>
    intro i h
    cases i with
    | zero =>
      have hxs : xs.sum = 0 :=
        list_sum_zero_of_getD xs (fun j hj => h (j + 1) (by simpa using hj) (by omega))
      simp [hxs]
    | succ i =>
      have hx : x = 0 := h 0 (by simp) (by omega)
      have := ih i (fun j hj hji => h (j + 1) (by simpa using hj) (by omega))
      simp [hx, this]

/-- C8: the participation coefficient equals the clamped spec formula when
`|L| > 1` and the total degree is positive, is `0` when the total degree is
zero or there is at most one layer, always lies in `[0, 1]`, and is `0`
whenever all of the node's layer degrees are concentrated in a single
layer. -/
theorem C8_participation_coefficient (mp : Multiplex) (v : Nat) :
    (0 ≤ compute_participation_coefficient mp v ∧
      compute_participation_coefficient mp v ≤ 1) ∧
    ((layerDegrees mp v).sum = 0 ∨ mp.layers.length ≤ 1 →
      compute_participation_coefficient mp v = 0) ∧
    (0 < (layerDegrees mp v).sum → 1 < mp.layers.length →
      compute_participation_coefficient mp v =
        max 0 (min 1 (((mp.layers.length : ℚ) / ((mp.layers.length : ℚ) - 1)) *
          (1 - ((layerDegrees mp v).map
            (fun d : Nat => ((d : ℚ) / (((layerDegrees mp v).sum : Nat) : ℚ)) ^ 2)).sum)))) ∧
    (∀ i : Nat, (∀ j, j < (layerDegrees mp v).length → j ≠ i →
        (layerDegrees mp v).getD j 0 = 0) →
      compute_participation_coefficient mp v = 0) := by
  have hpc : compute_participation_coefficient mp v =
      (if (layerDegrees mp v).sum = 0 then (0 : ℚ) else
        max 0 (min 1 (if 1 < mp.layers.length then
          ((mp.layers.length : ℚ) / ((mp.layers.length : ℚ) - 1)) *
            (1 - ((layerDegrees mp v).map
              (fun d : Nat => ((d : ℚ) / (((layerDegrees mp v).sum : Nat) : ℚ)) ^ 2)).sum)
          else 0))) := rfl
  by_cases hT : (layerDegrees mp v).sum = 0
  · rw [hpc, if_pos hT]
    refine ⟨⟨le_refl 0, by norm_num⟩, fun _ => rfl, fun hpos _ => absurd hT (by omega), ?_⟩
    intro i _
    rfl
  · rw [hpc, if_neg hT]
    have hclamp : ∀ x : ℚ, 0 ≤ max 0 (min 1 x) ∧ max 0 (min 1 x) ≤ 1 := by
      intro x
      exact ⟨le_max_left 0 _, max_le (by norm_num) (min_le_left 1 x)⟩
    refine ⟨hclamp _, ?_, ?_, ?_⟩
    · rintro (hc | hL)
      · exact absurd hc hT
      · rw [if_neg (by omega)]
        norm_num
    · intro _ hL
      rw [if_pos hL]
    · intro i hi
      have hTi : (layerDegrees mp v).sum = (layerDegrees mp v).getD i 0 :=
        list_sum_single (layerDegrees mp v) i hi
      have hf0 : ((0 : ℚ) : ℚ) = (((0 : Nat) : ℚ) /
          (((layerDegrees mp v).sum : Nat) : ℚ)) ^ 2 := by
        norm_num
      have hsq : ((layerDegrees mp v).map
          (fun d : Nat => ((d : ℚ) / (((layerDegrees mp v).sum : Nat) : ℚ)) ^ 2)).sum = 1 := by
        have hone := list_sum_single ((layerDegrees mp v).map
          (fun d : Nat => ((d : ℚ) / (((layerDegrees mp v).sum : Nat) : ℚ)) ^ 2)) i ?side
        · rw [hone]
          have hget : ((layerDegrees mp v).map
              (fun d : Nat => ((d : ℚ) / (((layerDegrees mp v).sum : Nat) : ℚ)) ^ 2)).getD i 0 =
              ((((layerDegrees mp v).getD i 0 : Nat) : ℚ) /
                (((layerDegrees mp v).sum : Nat) : ℚ)) ^ 2 := by
            rw [hf0]
            exact List.getD_map _ _ _
          rw [hget, ← hTi, div_self (by exact_mod_cast hT), one_pow]
        · intro j hj hji
          have hget : ((layerDegrees mp v).map
              (fun d : Nat => ((d : ℚ) / (((layerDegrees mp v).sum : Nat) : ℚ)) ^ 2)).getD j 0 =
              ((((layerDegrees mp v).getD j 0 : Nat) : ℚ) /
                (((layerDegrees mp v).sum : Nat) : ℚ)) ^ 2 := by
            rw [hf0]
            exact List.getD_map _ _ _
          rw [List.length_map] at hj
          rw [hget, hi j hj hji]
          norm_num
      rw [hsq]
      by_cases hL : 1 < mp.layers.length
      · rw [if_pos hL]
        norm_num
      · rw [if_neg hL]
        norm_num

/-- Witness for C8 on a node with edges in only one of two layers. -/
theorem C8_participation_coefficient_witness :
    compute_participation_coefficient
      ⟨[("a", ⟨[0, 1], [(0, 1)]⟩), ("b", ⟨[0, 1], []⟩)]⟩ 0 = 0 :=
  (C8_participation_coefficient ⟨[("a", ⟨[0, 1], [(0, 1)]⟩), ("b", ⟨[0, 1], []⟩)]⟩
    0).2.2.2 0 (by decide)

lemma sum_map_one {α : Type} (l : List α) : (l.map (fun _ => (1 : ℚ))).sum = l.length := by
  induction l with
  | nil => simp
  | cons x xs ih => simp [ih, add_comm]

/-- C10: any method tag other than the three known ones leaves the
initialized all-zero centrality map over the universe, with no error (the
default uniform weights always normalize). -/
theorem C10_unknown_method (mp : Multiplex) (method : String)
    (h1 : method ≠ "aggregate") (h2 : method ≠ "max") (h3 : method ≠ "harmonic") :
    compute_multiplex_centrality mp method none =
      Except.ok ((allNodesM mp).map (fun v => (v, 0))) := by
  have hnw : normalizeWeights (mp.layers.map (fun lg => (lg.1, (1 : ℚ)))) =
      Except.ok (if mp.layers.isEmpty then []
        else (mp.layers.map (fun lg => (lg.1, (1 : ℚ)))).map
          (fun kv => (kv.1, kv.2 / ((mp.layers.map (fun lg => (lg.1, (1 : ℚ)))).map
            (fun kv => kv.2)).sum))) := by
    by_cases hE : mp.layers.isEmpty
    · have hemp : mp.layers = [] := List.isEmpty_iff.mp hE
      rw [hemp]
      rfl
    · have hne : mp.layers ≠ [] := fun hc => hE (by rw [hc]; rfl)
      have hlen : mp.layers.length ≠ 0 := fun hc => hne (List.length_eq_zero.mp hc)
      have htot : ((mp.layers.map (fun lg => (lg.1, (1 : ℚ)))).map
          (fun kv => kv.2)).sum = (mp.layers.length : ℚ) := by
        rw [List.map_map]
        exact sum_map_one mp.layers
      have htne : ((mp.layers.map (fun lg => (lg.1, (1 : ℚ)))).map
          (fun kv => kv.2)).sum ≠ 0 := by
        rw [htot]
        exact_mod_cast hlen
      have hEm : ¬ (mp.layers.map (fun lg => (lg.1, (1 : ℚ)))).isEmpty := by
        intro hc
        exact hne (List.map_eq_nil.mp (List.isEmpty_iff.mp hc))
      simp only [normalizeWeights, hEm, if_false, if_neg htne, if_neg hE,
        Bool.false_eq_true]
  simp only [compute_multiplex_centrality, Option.getD_none, hnw, h1, h2, h3,
    if_false, ite_false]

/-- Witness for C10: the method tag `"bogus"` on a one-layer multiplex
returns the zero map without error. -/
theorem C10_unknown_method_witness :
    compute_multiplex_centrality ⟨[("a", ⟨[5, 7], [(5, 7)]⟩)]⟩ "bogus" none =
      Except.ok [(5, 0), (7, 0)] := by
  rw [C10_unknown_method ⟨[("a", ⟨[5, 7], [(5, 7)]⟩)]⟩ "bogus" (by decide) (by decide)
    (by decide)]
  rfl

lemma list_map_div_sum (l : List ℚ) (c : ℚ) : (l.map (fun x => x / c)).sum = l.sum / c := by
  induction l with
  | nil => simp
  | cons x xs ih => simp [ih, add_div]

lemma supraWrites_val (mp : Multiplex) (w : ℚ) :
    ∀ t ∈ supraWrites mp w, t.2.2 = 1 ∨ t.2.2 = w := by
  intro t ht
  simp only [supraWrites, List.mem_flatMap] at ht
  obtain ⟨le, _, hmem⟩ := ht
  rw [List.mem_append] at hmem
  rcases hmem with hintra | hinter
  · rw [List.mem_flatMap] at hintra
    obtain ⟨e, _, he⟩ := hintra
    by_cases hc : e.1 ∈ sortedNodes mp ∧ e.2 ∈ sortedNodes mp
    · rw [if_pos hc] at he
      simp only [List.mem_cons, List.not_mem_nil, or_false] at he
      rcases he with rfl | rfl
      · left; rfl
      · left; rfl
    · rw [if_neg hc] at he
      cases he
  · rw [List.mem_flatMap] at hinter
    obtain ⟨m, _, hm⟩ := hinter
    by_cases hc : m ≠ le.1
    · rw [if_pos hc, List.mem_filterMap] at hm
      obtain ⟨v, _, hv⟩ := hm
      by_cases hcv : v ∈ le.2.2.nodes
      · rw [if_pos hcv] at hv
        injection hv with hv
        right
        rw [← hv]
      · rw [if_neg hcv] at hv
        cases hv
    · rw [if_neg hc] at hm
      cases hm

/-- C6: for any multiplex with a nonempty universe, damping strictly
between 0 and 1 and a nonnegative inter-layer weight (the spec constrains
it to `[0, 1]`; the default is `0.5`), `compute_multiplex_pagerank` assigns
a value to exactly the universe nodes and the values sum to `1`. -/
theorem C6_pagerank_sums_to_one (mp : Multiplex) (w d : ℚ)
    (hw : 0 ≤ w) (hd0 : 0 < d) (hd1 : d < 1) (hne : sortedNodes mp ≠ []) :
    (compute_multiplex_pagerank mp w d).map Prod.fst = sortedNodes mp ∧
    ((compute_multiplex_pagerank mp w d).map (fun kv => kv.2)).sum = 1 := by
  have hn : 0 < (sortedNodes mp).length := List.length_pos.mpr hne
  have hL : 0 < mp.layers.length := by
    rcases Nat.eq_zero_or_pos mp.layers.length with h0 | h
    · exfalso
      have hnil : mp.layers = [] := List.length_eq_zero.mp h0
      apply hne
      rw [sortedNodes, allNodesM, hnil]
      rfl
    · exact h
  have hN : 0 < supraSize mp := Nat.mul_pos hn hL
  have hNq : (0 : ℚ) < (supraSize mp : ℚ) := by exact_mod_cast hN
  have hA : ∀ r c : Nat, 0 ≤ supraA mp w r c := by
    intro r c
    unfold supraA lastWriteVal
    cases hl : ((supraWrites mp w).filter (fun t => t.1 = r ∧ t.2.1 = c)).getLast? with
    | none => exact le_refl 0
    | some t =>
      have hmem := List.mem_of_mem_filter (List.mem_of_mem_getLast? hl)
      show 0 ≤ t.2.2
      rcases supraWrites_val mp w t hmem with h | h
      · rw [h]; norm_num
      · rw [h]; exact hw
  have hrow : ∀ r, 0 < rowSumFixed mp w r := by
    intro r
    unfold rowSumFixed
    by_cases h0 : rowSum mp w r = 0
    · rw [if_pos h0]; norm_num
    · rw [if_neg h0]
      have hge : 0 ≤ rowSum mp w r := Finset.sum_nonneg (fun c _ => hA r c)
      exact lt_of_le_of_ne hge (Ne.symm h0)
  have hP : ∀ r c, 0 ≤ transP mp w r c :=
    fun r c => div_nonneg (hA r c) (le_of_lt (hrow r))
  have hstep : ∀ pr : Nat → ℚ, (∀ i, 0 ≤ pr i) → ∀ i, 0 < prStep mp w d pr i := by
    intro pr hpr i
    unfold prStep
    have h1 : 0 ≤ d * ∑ r ∈ Finset.range (supraSize mp), transP mp w r i * pr r :=
      mul_nonneg (le_of_lt hd0)
        (Finset.sum_nonneg fun r _ => mul_nonneg (hP r i) (hpr r))
    have h2 : 0 < (1 - d) / (supraSize mp : ℚ) := div_pos (by linarith) hNq
    linarith
  have hiter : ∀ k (pr : Nat → ℚ), (∀ i, 0 < pr i) → ∀ i, 0 < prIter mp w d k pr i := by
    intro k
    induction k with
    | zero => intro pr hpr i; exact hpr i
    | succ k ih =>
      intro pr hpr i
      have hunf : prIter mp w d (k + 1) pr =
          if l1dist mp (prStep mp w d pr) pr < 1 / 1000000 then pr
          else prIter mp w d k (prStep mp w d pr) := rfl
      rw [hunf]
      split_ifs
      · exact hpr i
      · exact ih (prStep mp w d pr) (hstep pr (fun j => le_of_lt (hpr j))) i
  have hfin : ∀ i, 0 < prFinal mp w d i := by
    apply hiter
    intro i
    exact div_pos one_pos hNq
  have hmass : ∀ v, 0 < nodeMass mp w d v := by
    intro v
    unfold nodeMass
    refine Finset.sum_pos (fun l _ => hfin _) ?_
    rw [Finset.nonempty_range_iff]
    omega
  have hlen0 : ¬ (sortedNodes mp).length = 0 := by omega
  have hsum_raw :
      (((sortedNodes mp).map (fun v => (v, nodeMass mp w d v))).map (fun kv => kv.2)).sum =
        ((sortedNodes mp).map (fun v => nodeMass mp w d v)).sum := by
    rw [List.map_map]
    rfl
  have htpos :
      0 < (((sortedNodes mp).map (fun v => (v, nodeMass mp w d v))).map
        (fun kv => kv.2)).sum := by
    rw [hsum_raw]
    apply List.sum_pos
    · intro x hx
      obtain ⟨v, _, rfl⟩ := List.mem_map.mp hx
      exact hmass v
    · intro hc
      exact hne (List.map_eq_nil.mp hc)
  have hcpr : compute_multiplex_pagerank mp w d =
      ((sortedNodes mp).map (fun v => (v, nodeMass mp w d v))).map
        (fun kv => (kv.1, kv.2 /
          (((sortedNodes mp).map (fun v => (v, nodeMass mp w d v))).map
            (fun kv => kv.2)).sum)) := by
    simp only [compute_multiplex_pagerank]
    rw [if_neg hlen0, if_pos htpos]
  constructor
  · rw [hcpr, List.map_map, List.map_map]
    exact List.map_id _
  · rw [hcpr, List.map_map]
    show (((sortedNodes mp).map (fun v => (v, nodeMass mp w d v))).map
      (fun kv => kv.2 / (((sortedNodes mp).map (fun v => (v, nodeMass mp w d v))).map
        (fun kv => kv.2)).sum)).sum = 1
    have hstep2 : ((sortedNodes mp).map (fun v => (v, nodeMass mp w d v))).map
        (fun kv => kv.2 / (((sortedNodes mp).map (fun v => (v, nodeMass mp w d v))).map
          (fun kv => kv.2)).sum) =
        (((sortedNodes mp).map (fun v => (v, nodeMass mp w d v))).map
          (fun kv => kv.2)).map (fun x => x /
            (((sortedNodes mp).map (fun v => (v, nodeMass mp w d v))).map
              (fun kv => kv.2)).sum) := by
      simp only [List.map_map]
      rfl
    rw [hstep2, list_map_div_sum]
    exact div_self (ne_of_gt htpos)

/-- Witness for C6 on a single-layer, single-node multiplex with
`inter_layer_weight = 0.5` and `damping = 0.5`. -/
theorem C6_pagerank_sums_to_one_witness :
    (compute_multiplex_pagerank ⟨[("a", ⟨[3], []⟩)]⟩ (1 / 2) (1 / 2)).map Prod.fst =
      sortedNodes ⟨[("a", ⟨[3], []⟩)]⟩ ∧
    ((compute_multiplex_pagerank ⟨[("a", ⟨[3], []⟩)]⟩ (1 / 2) (1 / 2)).map
      (fun kv => kv.2)).sum = 1 :=
  C6_pagerank_sums_to_one ⟨[("a", ⟨[3], []⟩)]⟩ (1 / 2) (1 / 2)
    (by norm_num) (by norm_num) (by norm_num) (by decide)

lemma foldl_max_zero : ∀ (l : List Nat), (∀ x ∈ l, x = 0) → l.foldl max 0 = 0 := by
  intro l
  induction l with
  | nil => intro _; rfl
  | cons b l ih =>
    intro h
    have hb : b = 0 := h b (List.mem_cons_self _ _)
    have := ih (fun x hx => h x (List.mem_cons_of_mem _ hx))
    simpa [hb] using this

lemma foldl_max_ge_init (l : List Nat) : ∀ a : Nat, a ≤ l.foldl max a := by
  induction l with
  | nil => intro a; exact le_refl a
  | cons b l ih =>
    intro a
    exact le_trans (le_max_left a b) (ih (max a b))

lemma foldl_max_ge (l : List Nat) : ∀ a x : Nat, x ∈ l → x ≤ l.foldl max a := by
  induction l with
  | nil => intro a x hx; cases hx
  | cons b l ih =>
    intro a x hx
    rcases List.mem_cons.mp hx with rfl | hx
    · exact le_trans (le_max_right a x) (foldl_max_ge_init l (max a x))
    · exact ih (max a b) x hx

/-- C3: the code violates the claimed totality.  On a nonempty graph with
no edges the maximum in-degree is `0` (the `else 1` guard fires only for
the empty graph) and the per-node division raises `ZeroDivisionError`
instead of using divisor `1` as the claim describes. -/
theorem C3_edge_free_graph_raises (g : DiGraph) (h1 : g.nodes ≠ []) (h2 : g.edges = []) :
    detect_endogenous_risk g = Except.error "ZeroDivisionError" := by
  have hnemp : ¬ g.nodes.isEmpty = true := fun hc => h1 (List.isEmpty_iff.mp hc)
  have hmax : maxInDeg g = 0 := by
    unfold maxInDeg
    rw [if_neg hnemp]
    apply foldl_max_zero
    intro x hx
    obtain ⟨v, _, rfl⟩ := List.mem_map.mp hx
    unfold inDegree
    rw [h2]
    rfl
  unfold detect_endogenous_risk
  rw [if_pos ⟨hnemp, hmax⟩]

/-- Witness for C3: the single-node, edge-free graph makes
`detect_endogenous_risk` raise. -/
theorem C3_edge_free_graph_raises_witness :
    detect_endogenous_risk ⟨[0], []⟩ = Except.error "ZeroDivisionError" :=
  C3_edge_free_graph_raises ⟨[0], []⟩ (by decide) rfl

/-- C1, as stated, is refuted: on the acyclic graph `0 → 1` the node `1`
receives risk `0.3 · 1/1 = 0.3 ≠ 0` from the in-degree term. -/
theorem C1_counterexample :
    Acyclic ⟨[0, 1], [(0, 1)]⟩ ∧
    detect_endogenous_risk ⟨[0, 1], [(0, 1)]⟩ =
      Except.ok [(0, 0), (1, 3 / 10)] ∧ (3 / 10 : ℚ) ≠ 0 := by
  have hcyc : simple_cycles ⟨[0, 1], [(0, 1)]⟩ = [] := by decide
  refine ⟨by decide, ?_, by norm_num⟩
  have h0 : inDegree ⟨[0, 1], [(0, 1)]⟩ 0 = 0 := by decide
  have h1 : inDegree ⟨[0, 1], [(0, 1)]⟩ 1 = 1 := by decide
  have hm : maxInDeg ⟨[0, 1], [(0, 1)]⟩ = 1 := by decide
  have hmp : maxPartOf (List.take 1000 ([] : List (List Nat))) = 1 := by decide
  have hs0 : ((List.take 1000 ([] : List (List Nat))).map
      (fun c => List.count 0 c)).sum = 0 := by decide
  have hs1 : ((List.take 1000 ([] : List (List Nat))).map
      (fun c => List.count 1 c)).sum = 0 := by decide
  simp only [detect_endogenous_risk, hcyc]
  rw [if_neg (by decide)]
  congr 1
  simp only [List.map_cons, List.map_nil]
  rw [hs0, hs1, h0, h1, hm, hmp]
  norm_num

/-- C1 (amended): on a well-formed acyclic graph with at least one edge,
the cycle-participation term vanishes for every node, so
`detect_endogenous_risk` returns `0.3 · in_deg(v)/I` for each node `v`
(`I` the maximum in-degree); in particular the score is `0` exactly for
nodes of in-degree `0`, not for all nodes. -/
theorem C1_dag_risk (g : DiGraph) (hwf : DWellFormed g) (hac : Acyclic g)
    (hne : g.edges ≠ []) :
    detect_endogenous_risk g = Except.ok (g.nodes.map (fun v =>
      (v, (3 / 10 : ℚ) * ((inDegree g v : ℚ) / (maxInDeg g : ℚ))))) := by
  have hcyc : simple_cycles g = [] := by
    unfold simple_cycles
    rw [List.filter_eq_nil_iff]
    intro c hc
    simp [hac c hc]
  obtain ⟨e, he⟩ : ∃ e, e ∈ g.edges := by
    cases hE : g.edges with
    | nil => exact absurd hE hne
    | cons e es => exact ⟨e, List.mem_cons_self _ _⟩
  have htgt : e.2 ∈ g.nodes := (hwf.2.1 e he).2
  have hnodes : ¬ g.nodes.isEmpty = true := fun hc => by
    rw [List.isEmpty_iff.mp hc] at htgt
    cases htgt
  have hideg : 1 ≤ inDegree g e.2 := by
    unfold inDegree
    exact (List.countP_pos).mpr ⟨e, he, by simp⟩
  have hmax1 : 1 ≤ maxInDeg g := by
    unfold maxInDeg
    rw [if_neg hnodes]
    exact le_trans hideg
      (foldl_max_ge _ 0 _ (List.mem_map_of_mem (inDegree g) htgt))
  have hpart : ∀ v : Nat,
      ((((simple_cycles g).take 1000).map (fun c => c.count v)).sum) = 0 := by
    intro v
    rw [hcyc]
    rfl
  have hmaxp : maxPartOf ((simple_cycles g).take 1000) = 1 := by
    rw [hcyc]
    rfl
  simp only [detect_endogenous_risk]
  rw [if_neg (by rintro ⟨_, h0⟩; omega)]
  congr 1
  apply List.map_congr_left
  intro v _
  rw [hpart v, hmaxp]
  norm_num

/-- Witness for C1 (amended) on the two-edge DAG `0 → 2, 1 → 2`. -/
theorem C1_dag_risk_witness :
    detect_endogenous_risk ⟨[0, 1, 2], [(0, 2), (1, 2)]⟩ =
      Except.ok ((([0, 1, 2] : List Nat)).map (fun v =>
        (v, (3 / 10 : ℚ) * ((inDegree ⟨[0, 1, 2], [(0, 2), (1, 2)]⟩ v : ℚ) /
          (maxInDeg ⟨[0, 1, 2], [(0, 2), (1, 2)]⟩ : ℚ))))) :=
  C1_dag_risk ⟨[0, 1, 2], [(0, 2), (1, 2)]⟩ (by decide) (by decide) (by decide)

end MNS
